import Mathlib

/-!
Shallow embedding of the Table data model of src/handleDatabase.py and proofs
about its merge operator, CSV serialization, schema export and lookups.

Modelling conventions:
* Python scalar cell values are modelled by the type Value, with strings as
  Value.txt and int values as Value.num.  Floating-point values are outside
  the model; every numeric cell is an integer.
* A Python dict is modelled as an association list in insertion order.
  Assignment to an existing key keeps its position (insertA, modifyA);
  assignment to a fresh key appends at the end, exactly as CPython dicts do.
* indexedContent maps a row key to a record.  Keys in the source can be any
  value, including None (a row whose index cell is null), so the key type is
  Option Value, with none standing for the Python value None.
* The csv reader and writer primitives (csv.DictReader and csv.DictWriter)
  are external collaborators; rows are modelled as lists of cell strings
  after line splitting.  writeCell implements the QUOTE_NONNUMERIC policy of
  Table.toCsv, readCell the corresponding unquoting on the read side.
-/

set_option maxHeartbeats 1000000

namespace DBH

/-- A Python scalar value stored in a table cell: a string or an integer. -/
inductive Value where
  | txt (s : String)
  | num (n : Int)
deriving DecidableEq

/-- Row keys of Table.indexedContent; none models the Python value None. -/
abbrev K := Option Value

/-- A dataset (one row of a table): a Python dict from field name to value. -/
abbrev Record := List (String × Value)

/-- True when the value is numeric (a Python int). -/
def isNumV : Value → Bool
  | .num _ => true
  | .txt _ => false

/-- True when the value is a Python str. -/
def isTxtV : Value → Bool
  | .txt _ => true
  | .num _ => false

/-! ## Python dict operations on association lists -/
/-- Lookup in a Python dict: the value at the first matching key, if any. -/
def lookupA {α : Type} [DecidableEq α] {β : Type} : List (α × β) → α → Option β
  | [], _ => none
  | (a, b) :: rest, k => if a = k then some b else lookupA rest k

/-- Membership test for a key, the Python expression k in d. -/
def containsA {α : Type} [DecidableEq α] {β : Type} (l : List (α × β)) (k : α) : Bool :=
  (lookupA l k).isSome

/-- Python dict assignment d[k] = v: replace in place if the key exists,
otherwise append at the end, as CPython insertion order does. -/
def insertA {α : Type} [DecidableEq α] {β : Type} : List (α × β) → α → β → List (α × β)
  | [], k, v => [(k, v)]
  | (a, b) :: rest, k, v => if a = k then (a, v) :: rest else (a, b) :: insertA rest k v

/-- Update the value stored at a key (no change when the key is absent). -/
def modifyA {α : Type} [DecidableEq α] {β : Type} : List (α × β) → α → (β → β) → List (α × β)
  | [], _, _ => []
  | (a, b) :: rest, k, g => if a = k then (a, g b) :: rest else (a, b) :: modifyA rest k g

/-- Python indexing d[k], which raises KeyError when the key is absent. -/
def getItem {α : Type} [DecidableEq α] {β : Type} (l : List (α × β)) (k : α) :
    Except Unit β :=
  match lookupA l k with
  | some b => .ok b
  | none => .error ()

/-- First-occurrence deduplication with an accumulator of already seen names. -/
def dedupGo (seen : List String) : List String → List String
  | [] => []
  | a :: rest => if a ∈ seen then dedupGo seen rest else a :: dedupGo (a :: seen) rest

/-- The set of names in a list, keeping the first occurrence of each. -/
def dedupL (l : List String) : List String :=
  dedupGo [] l

/-! ## Integer literals: the str builtin and ast.literal_eval restricted to int -/
/-- Decimal digit to character. -/
def digitCh (d : Nat) : Char :=
  if d = 0 then '0' else if d = 1 then '1' else if d = 2 then '2' else if d = 3 then '3'
  else if d = 4 then '4' else if d = 5 then '5' else if d = 6 then '6'
  else if d = 7 then '7' else if d = 8 then '8' else '9'

/-- Character to decimal digit, when it is one. -/
def chDigit? (c : Char) : Option Nat :=
  if c = '0' then some 0 else if c = '1' then some 1 else if c = '2' then some 2
  else if c = '3' then some 3 else if c = '4' then some 4 else if c = '5' then some 5
  else if c = '6' then some 6 else if c = '7' then some 7 else if c = '8' then some 8
  else if c = '9' then some 9 else none

/-- Decimal rendering of a natural number, as the Python str builtin writes it. -/
def natToStr (n : Nat) : String :=
  if n = 0 then "0" else String.mk (((Nat.digits 10 n).map digitCh).reverse)

/-- Decimal rendering of an integer, as the Python str builtin writes it. -/
def intToStr (i : Int) : String :=
  if i < 0 then "-" ++ natToStr i.natAbs else natToStr i.toNat

/-- Parse every character as a digit, failing on the first non-digit. -/
def digitsOfChars : List Char → Option (List Nat)
  | [] => some []
  | c :: rest =>
    match chDigit? c with
    | none => none
    | some d =>
      match digitsOfChars rest with
      | none => none
      | some ds => some (d :: ds)

/-- Parse a Python int literal without sign: nonempty digits, no leading zero
except for the literal 0 itself. -/
def parseNatLit (l : List Char) : Option Nat :=
  match digitsOfChars l with
  | none => none
  | some ds =>
    if l = [] then none
    else if 1 < l.length ∧ l.head? = some '0' then none
    else some (Nat.ofDigits 10 ds.reverse)

/-- Model of ast.literal_eval as used by Table._readDataWithSpecifiedFields:
it succeeds exactly on int literals (optionally negated); any other literal
either fails to parse or fails the isinstance assertion in the source. -/
def literalEvalInt (s : String) : Option Int :=
  match s.data with
  | [] => none
  | c :: rest =>
    if c = '-' then
      match parseNatLit rest with
      | none => none
      | some n => some (-(n : Int))
    else
      match parseNatLit (c :: rest) with
      | none => none
      | some n => some ((n : Int))

/-! ## CSV cells: quoting and unquoting -/
/-- Double every quote character, the csv escaping used inside quoted cells. -/
def escapeQ : List Char → List Char
  | [] => []
  | c :: rest => if c = '"' then '"' :: '"' :: escapeQ rest else c :: escapeQ rest

/-- Collapse doubled quote characters, the inverse lexing step. -/
def unescapeQ : List Char → List Char
  | [] => []
  | c :: rest =>
    if c = '"' then
      match rest with
      | [] => [c]
      | c2 :: rest2 => if c2 = '"' then '"' :: unescapeQ rest2 else c :: c2 :: unescapeQ rest2
    else c :: unescapeQ rest

/-- One output cell of csv.DictWriter under QUOTE_NONNUMERIC with quotechar
a double quote: strings are quoted with inner quotes doubled, numeric values
are written unquoted by the str builtin. -/
def writeCell : Value → String
  | .txt s => String.mk ('"' :: (escapeQ s.data ++ ['"']))
  | .num n => intToStr n

/-- The unquoting csv.DictReader applies to one cell: strip surrounding
quotes and collapse doubled quotes; anything unquoted is kept as is. -/
def readCell (s : String) : String :=
  match s.data with
  | [] => s
  | c :: rest =>
    if c = '"' then
      if rest.getLast? = some '"' then String.mk (unescapeQ rest.dropLast) else s
    else s

/-- True when a written cell carries the quote character around it. -/
def isQuotedCell (s : String) : Bool :=
  match s.data with
  | [] => false
  | c :: rest => c = '"' && rest.getLast? = some '"'

/-! ## The Table data model (class Table of src/handleDatabase.py) -/
/-- In-memory table: index field name, declared or inferred text and numeric
field name sets (kept as lists, membership is what matters), and the indexed
content, a dict from row key to record. -/
structure Table where
  indexField : String
  txtTypeFields : List String
  numTypeFields : List String
  indexedContent : List (K × Record)
deriving DecidableEq

/-- All fieldnames, the fields property: the union of both schema sets. -/
def Table.fields (T : Table) : List String :=
  dedupL (T.txtTypeFields ++ T.numTypeFields)

/-- The content property: the list of records in storage order. -/
def Table.records (T : Table) : List Record :=
  T.indexedContent.map Prod.snd

/-- Table.contentOf: look up a cell, returning None instead of raising
KeyError when the key or the field is absent (the try/except in the source,
modelled by catching the error of the raising getItem). -/
def Table.contentOf (T : Table) (keyvalue : K) (columnname : String) : Option Value :=
  match (do
      let r ← getItem T.indexedContent keyvalue
      getItem r columnname : Except Unit Value) with
  | .ok v => some v
  | .error _ => none

/-- The field type argument passed to Table._addField: the class str or a
numeric class (int or float). -/
inductive FieldKind where
  | strK
  | numK
deriving DecidableEq

/-- The Python builtin type applied to a cell value. -/
def kindOf : Value → FieldKind
  | .txt _ => .strK
  | .num _ => .numK

/-- Table._addField on the two schema sets: add the field to the matching
set, but only when it is not yet in the union of both. -/
def addFieldSets (tx nm : List String) (f : String) (kind : FieldKind) :
    List String × List String :=
  if f ∈ tx ∨ f ∈ nm then (tx, nm)
  else if kind = .strK then (tx ++ [f], nm) else (tx, nm ++ [f])

/-- Table.getFields: every field mapped to its declared type string, with the
primary key suffix on the index field. -/
def Table.getFields (T : Table) : List (String × String) :=
  T.fields.map (fun f =>
    (f, (if f ∈ T.txtTypeFields then "text" else "numeric")
          ++ (if f = T.indexField then " primary key" else "")))

/-! ## Reading content (Table._read and helpers) -/
/-- One raw source row before null dropping: a dict from field name to an
optional value (none models a Python None cell), plus a flag recording that
a csv row was longer than the header, in which case csv.DictReader adds a
restkey entry holding a list, which makes _addField fail its assertion in
unspecified-schema mode. -/
structure Dataset where
  pairs : List (String × Option Value)
  extra : Bool
deriving DecidableEq

/-- State threaded through _readDataWithUnspecifiedFields: the content built
so far and the two growing schema sets. -/
structure RState where
  content : List (K × Record)
  tx : List String
  nm : List String
deriving DecidableEq

/-- One iteration of the item loop of _readDataWithUnspecifiedFields: skip a
null value, otherwise store the value into the record at the row key and
classify the field by the runtime type of its value. -/
def stepUnspec (kv : K) (st : RState) (p : String × Option Value) : RState :=
  match p.2 with
  | none => st
  | some v =>
    let ts := addFieldSets st.tx st.nm p.1 (kindOf v)
    { content := modifyA st.content kv (fun r => insertA r p.1 v),
      tx := ts.1, nm := ts.2 }

/-- Table._readDataWithUnspecifiedFields on one dataset: index the record by
its index cell (KeyError when the index field is absent from the dataset),
drop null values, store the rest and classify each stored field by the
runtime type of its value.  A row longer than the header makes _addField hit
its assertion on the restkey list entry. -/
def readUnspecDataset (ixf : String) (s : RState) (d : Dataset) : Option RState :=
  match lookupA d.pairs ixf with
  | none => none
  | some kv =>
    let s2 := d.pairs.foldl (stepUnspec kv) { s with content := insertA s.content kv [] }
    if d.extra then none else some s2

/-- One iteration of the item loop of _readDataWithSpecifiedFields: skip null
values and undeclared fields, parse string cells of numeric-declared fields
as int literals (the none answer is the assertion failure or literal error in
the source), store everything else as is. -/
def stepSpec (fieldsL nmL : List String) (kv : K)
    (c : Option (List (K × Record))) (p : String × Option Value) :
    Option (List (K × Record)) :=
  match c with
  | none => none
  | some c =>
    match p.2 with
    | none => some c
    | some v =>
      if p.1 ∈ fieldsL then
        match v with
        | .txt str =>
          if p.1 ∈ nmL then
            match literalEvalInt str with
            | some n => some (modifyA c kv (fun r => insertA r p.1 (.num n)))
            | none => none
          else some (modifyA c kv (fun r => insertA r p.1 v))
        | .num _ => some (modifyA c kv (fun r => insertA r p.1 v))
      else some c

/-- Table._readDataWithSpecifiedFields on one dataset: index the record by
its index cell, then run the item loop. -/
def readSpecDataset (ixf : String) (fieldsL nmL : List String)
    (c0 : List (K × Record)) (d : Dataset) : Option (List (K × Record)) :=
  match lookupA d.pairs ixf with
  | none => none
  | some kv => d.pairs.foldl (stepSpec fieldsL nmL kv) (some (insertA c0 kv []))

/-- A content source passed to the Table constructor: either a sequence of
dicts, or delimited text (a string or a readable stream) already split into
rows of raw cell strings by the external csv machinery. -/
inductive Source where
  | rows (ds : List (List (String × Option Value)))
  | text (rs : List (List String))

/-- Pair header names with the cells of one row, as csv.DictReader does:
missing trailing cells become None (the restval default). -/
def buildPairs : List String → List String → List (String × Option Value)
  | [], _ => []
  | h :: hs, [] => (h, none) :: buildPairs hs []
  | h :: hs, c :: cs => (h, some (.txt (readCell c))) :: buildPairs hs cs

/-- The datasets a source yields in Table._read: list sources are taken as
is; text sources go through csv.DictReader with the first row as header,
every cell arriving as a string, and rows longer than the header flagged. -/
def datasetsOf : Source → List Dataset
  | .rows ds => ds.map (fun p => ⟨p, false⟩)
  | .text [] => []
  | .text (h :: rs) =>
    let header := h.map readCell
    rs.map (fun cells => ⟨buildPairs header cells, decide (header.length < cells.length)⟩)

/-- The dataset loop of _readDataWithUnspecifiedFields, stopped by a raised
error. -/
def foldUnspec (ixf : String) (s : Option RState) (d : Dataset) : Option RState :=
  match s with
  | none => none
  | some s => readUnspecDataset ixf s d

/-- The dataset loop of _readDataWithSpecifiedFields, stopped by a raised
error. -/
def foldSpec (ixf : String) (fieldsL nmL : List String)
    (c : Option (List (K × Record))) (d : Dataset) : Option (List (K × Record)) :=
  match c with
  | none => none
  | some c => readSpecDataset ixf fieldsL nmL c d

/-- The Table constructor: record the schema, raise TableKeyError when the
schema is nonempty but misses the index field, then read the content with
unspecified or specified fields depending on whether the schema is empty. -/
def mkTable (indexField : String) (tx nm : List String) (src : Source) : Option Table :=
  let fieldsL := dedupL (tx ++ nm)
  if fieldsL ≠ [] ∧ indexField ∉ fieldsL then none
  else
    let ds := datasetsOf src
    if fieldsL = [] then
      match ds.foldl (foldUnspec indexField) (some ⟨[], tx, nm⟩) with
      | none => none
      | some s => some ⟨indexField, s.tx, s.nm, s.content⟩
    else
      match ds.foldl (foldSpec indexField fieldsL nm) (some []) with
      | none => none
      | some content => some ⟨indexField, tx, nm, content⟩

/-- Table.copy: construct a new Table from the same index field (joined back
from its characters, which is the identity), copies of both schema sets and
a list of copies of the records; the copied content goes through the same
read pipeline as any constructor content argument. -/
def copyTable (T : Table) : Option Table :=
  mkTable T.indexField T.txtTypeFields T.numTypeFields
    (.rows (T.indexedContent.map (fun q => q.2.map (fun p => (p.1, some p.2)))))

/-! ## The merge operator (Table.__lshift__)
The source first copies the left operand, then iterates over the keys of the
right operand and, per key, over the fields of the right schema.  For a key
already present it assigns the field of the right record into the result
record; for a new key it installs the whole right record, which makes the
result record an alias of the right record, so later field assignments for
that key write through the alias into the right operand.  The state below
tracks the result content and schema sets, the content of the right operand
(to make those aliased writes observable), the aliased keys, and an ok flag
that goes false on the KeyError raised when a right record lacks a field of
the right schema (evaluation of the right-hand side of the assignment). -/
/-- Mutable state of one evaluation of Table.__lshift__. -/
structure MState where
  resContent : List (K × Record)
  resTx : List String
  resNm : List String
  bContent : List (K × Record)
  aliased : List K
  ok : Bool
deriving DecidableEq

/-- The _addField call of the inner loop of Table.__lshift__: update the
schema sets of the result with the field, typed str when it is a text field
of the right operand and int otherwise. -/
def withFieldAdded (B : Table) (f : String) (s : MState) : MState :=
  { s with
    resTx := (addFieldSets s.resTx s.resNm f
      (if f ∈ B.txtTypeFields then .strK else .numK)).1,
    resNm := (addFieldSets s.resTx s.resNm f
      (if f ∈ B.txtTypeFields then .strK else .numK)).2 }

/-- The branch of the inner loop of Table.__lshift__ after _addField: for a
key already in the result, assign the field of the right record into the
result record (writing through the alias into the right operand when the
result record was installed from it); for a new key install the whole right
record, which aliases it.  The ok flag goes false on the KeyError raised
when the right record lacks the field. -/
def stepFieldRest (i : K) (s : MState) (f : String) : MState :=
  if containsA s.resContent i then
    match lookupA s.bContent i with
    | none => { s with ok := false }
    | some rec =>
      match lookupA rec f with
      | none => { s with ok := false }
      | some v =>
        { s with
          resContent := modifyA s.resContent i (fun r => insertA r f v),
          bContent := if i ∈ s.aliased then modifyA s.bContent i (fun r => insertA r f v)
                      else s.bContent }
  else
    match lookupA s.bContent i with
    | none => { s with ok := false }
    | some rec =>
      { s with resContent := insertA s.resContent i rec, aliased := i :: s.aliased }

/-- Body of the inner loop of Table.__lshift__ for key i and one field of the
right schema (no effect once an exception has escaped). -/
def stepField (B : Table) (i : K) (s : MState) (f : String) : MState :=
  if s.ok = false then s else stepFieldRest i (withFieldAdded B f s) f

/-- The inner loop of Table.__lshift__ over the fields of the right schema. -/
def stepKey (B : Table) (s : MState) (i : K) : MState :=
  B.fields.foldl (stepField B i) s

/-- The whole loop of Table.__lshift__, started from the copy of the left
operand (the copy makes fresh record dicts, so nothing ever writes into the
left operand). -/
def runMerge (A1 B : Table) : MState :=
  (B.indexedContent.map Prod.fst).foldl (stepKey B)
    ⟨A1.indexedContent, A1.txtTypeFields, A1.numTypeFields, B.indexedContent, [], true⟩

/-- Table.__lshift__, the merge operator A << B: copy A (which can itself
raise), run the loop, and return the mutated copy; none models an escaping
exception. -/
def lshift (A B : Table) : Option Table :=
  match copyTable A with
  | none => none
  | some A1 =>
    let s := runMerge A1 B
    if s.ok then some ⟨A1.indexField, s.resTx, s.resNm, s.resContent⟩ else none

/-- The content of the right operand after evaluating A << B, including the
writes performed through records aliased by the whole-row install branch. -/
def lshiftOperandB (A B : Table) : List (K × Record) :=
  match copyTable A with
  | none => B.indexedContent
  | some A1 => (runMerge A1 B).bContent

/-! ## Serialization (Table.toCsv) -/
/-- The header of Table.toCsv: the index field first, then the remaining
fields sorted. -/
def strLe (a b : String) : Bool :=
  go a.data b.data
where
  go : List Char → List Char → Bool
    | [], _ => true
    | _ :: _, [] => false
    | x :: xs, y :: ys =>
      if x.toNat < y.toNat then true
      else if y.toNat < x.toNat then false
      else go xs ys

/-- Insert a string into a list, before the first element it compares at or
below. -/
def insStr (a : String) : List String → List String
  | [] => [a]
  | b :: bs => if strLe a b then a :: b :: bs else b :: insStr a bs

/-- Insertion sort on strings by code points, as the Python sorted builtin
orders str values. -/
def isortStr : List String → List String
  | [] => []
  | b :: bs => insStr b (isortStr bs)

/-- The fieldnames list of Table.toCsv: index field first, then the other
fields in sorted order. -/
def fieldnamesOf (T : Table) : List String :=
  T.indexField :: isortStr (T.fields.filter (fun f => f ≠ T.indexField))

/-- The cell csv.DictWriter writes for one field of a record: the quoted or
numeric rendering of the value, with the empty string (the restval default)
for a field the record lacks. -/
def cellF (rec : Record) (f : String) : String :=
  writeCell ((lookupA rec f).getD (.txt ""))

/-- One data row written by csv.DictWriter: one cell per header field. -/
def rowOf (fns : List String) (rec : Record) : List String :=
  fns.map (cellF rec)

/-- Table.toCsv as the list of rows it writes: a quoted header row, then one
row per record in storage order; none models the ValueError that
csv.DictWriter raises when a record contains a field outside fieldnames. -/
def Table.toCsvRows (T : Table) : Option (List (List String)) :=
  if T.indexedContent.all (fun q => q.2.all (fun p => p.1 ∈ fieldnamesOf T)) then
    some ((fieldnamesOf T).map (fun n => writeCell (.txt n))
      :: T.indexedContent.map (fun q => rowOf (fieldnamesOf T) q.2))
  else none

/-! ## Equality (Table.__eq__) -/
/-- Python dict equality on records: same keys with the same values. -/
def dictBeq (r s : Record) : Bool :=
  r.all (fun p => lookupA s p.1 = some p.2) && s.all (fun p => lookupA r p.1 = some p.2)

/-- Totalized comparison of sort keys.  Python would raise on a record that
lacks the index field (KeyError in itemgetter) and on comparing a str with
an int (TypeError); both are totalized here, none first and numbers before
strings.  No theorem in this file depends on those two corners. -/
def valLe : Option Value → Option Value → Bool
  | none, _ => true
  | some _, none => false
  | some (.num a), some (.num b) => a ≤ b
  | some (.txt a), some (.txt b) => strLe a b
  | some (.num _), some (.txt _) => true
  | some (.txt _), some (.num _) => false

/-- Insert a record into a list sorted by the value at the index field. -/
def insRec (ixf : String) (r : Record) : List Record → List Record
  | [] => [r]
  | x :: xs =>
    if valLe (lookupA r ixf) (lookupA x ixf) then r :: x :: xs else x :: insRec ixf r xs

/-- The sorted builtin applied to a content list with an itemgetter key on
the index field. -/
def isortRecs (ixf : String) : List Record → List Record
  | [] => []
  | x :: xs => insRec ixf x (isortRecs ixf xs)

/-- Python list equality on two lists of records. -/
def recListBeq : List Record → List Record → Bool
  | [], [] => true
  | _ :: _, [] => false
  | [], _ :: _ => false
  | x :: xs, y :: ys => dictBeq x y && recListBeq xs ys

/-- Python set equality on two field name lists. -/
def setBeq (a b : List String) : Bool :=
  a.all (fun x => x ∈ b) && b.all (fun x => x ∈ a)

/-- Table.__eq__: contents compared as lists sorted by the index field of the
left operand, and the index field and both schema sets compared. -/
def tableEqPy (A B : Table) : Bool :=
  recListBeq (isortRecs A.indexField A.records) (isortRecs A.indexField B.records)
    && A.indexField = B.indexField
    && setBeq A.txtTypeFields B.txtTypeFields
    && setBeq A.numTypeFields B.numTypeFields

/-- The raw string a cell value denotes on the wire before unquoting: the
string itself, or the decimal rendering of a number. -/
def rawStr : Value → String
  | .txt s => s
  | .num n => intToStr n

/-! ## Well-formedness: the conditions under which Table.copy reproduces a
table exactly.  Every Table built by ordinary list-content construction with
already-typed values satisfies them; tables read from text do not have to
(their row keys are the raw strings while the records hold parsed values),
and Table.copy genuinely re-keys or even raises on such tables. -/
/-- Conditions on one row: record keys unrepeated and inside the schema, the
row keyed by its own (non-null) index cell, and numeric-declared cells
holding numeric values. -/
def WFrow (T : Table) (q : K × Record) : Prop :=
  (q.2.map Prod.fst).Nodup ∧
  (∀ p ∈ q.2, p.1 ∈ T.fields) ∧
  (lookupA q.2 T.indexField = q.1 ∧ q.1.isSome = true) ∧
  (∀ p ∈ q.2, p.1 ∈ T.numTypeFields → isNumV p.2 = true)

/-- Conditions under which Table.copy reproduces the table exactly. -/
def WF (T : Table) : Prop :=
  (T.fields ≠ [] → T.indexField ∈ T.fields) ∧
  (T.indexedContent.map Prod.fst).Nodup ∧
  ∀ q ∈ T.indexedContent, WFrow T q

instance (T : Table) (q : K × Record) : Decidable (WFrow T q) := by
  unfold WFrow
  infer_instance

instance (T : Table) : Decidable (WF T) := by
  unfold WF
  infer_instance

/-- The record patching the inner merge loop performs on an existing result
record: each field of the right schema overwritten, in order, with the value
the right record holds for it. -/
def patchRec (rec : Record) (fs : List String) (r : Record) : Record :=
  fs.foldl (fun r f => insertA r f ((lookupA rec f).getD (.txt ""))) r

/-- Every record of the table carries a value for every field of the
schema.  The merge operator reads B.content of its right operand at every
schema field of every key, so a right operand violating this makes the
merge raise KeyError. -/
def recsFull (B : Table) : Prop :=
  ∀ q ∈ B.indexedContent, ∀ f ∈ B.fields, containsA q.2 f = true

instance (B : Table) : Decidable (recsFull B) := by
  unfold recsFull
  infer_instance

/-! ## Concrete tables used by counterexamples and witnesses -/
/-- A one-row table keyed by the text value 0 (as built from list content
with declared text schema). -/
def tblA0 : Table := ⟨"id", ["id"], [], [(some (.txt "0"), [("id", .txt "0")])]⟩

/-- A table whose schema declares name and place but whose only record lacks
both (specified-schema reads keep only the cells a row provides). -/
def tblBmissing : Table :=
  ⟨"id", ["id", "name", "place"], [], [(some (.txt "0"), [("id", .txt "0")])]⟩

/-- A table with a new key 2 whose record lacks the declared fields x, y. -/
def tblBnewGap : Table :=
  ⟨"id", ["id", "x", "y"], [], [(some (.txt "2"), [("id", .txt "2")])]⟩

/-- The table Table(indexField=id, content=[dict(id=None)]): unspecified
schema, a single record whose index cell was null, keyed by None with an
empty record. -/
def tblNullKey : Table := ⟨"id", [], [], [(none, [])]⟩

/-- A two-field, one-row well-formed table. -/
def tblWit1 : Table :=
  ⟨"id", ["id", "name"], [], [(some (.txt "0"), [("id", .txt "0"), ("name", .txt "a")])]⟩

/-- A right operand sharing key 0 with tblWit1 and declaring field type. -/
def tblWit2 : Table :=
  ⟨"id", ["id", "type"], [], [(some (.txt "0"), [("id", .txt "0"), ("type", .txt "nf")])]⟩

/-- A right operand holding only the new key 1. -/
def tblWit3 : Table :=
  ⟨"id", ["id", "name"], [], [(some (.txt "1"), [("id", .txt "1"), ("name", .txt "k")])]⟩

/-! ## Claim C8 -/
/-- True when a declared type string carries the primary key suffix. -/
def hasPkSuffix (ty : String) : Bool :=
  (" primary key").data.isSuffixOf ty.data

/-- True when a declared type string starts with the given base type. -/
def strHasBase (base ty : String) : Bool :=
  base.data.isPrefixOf ty.data

/-! ## Claim C9 -/
/-- The two schema sets share no field name. -/
def Disj (tx nm : List String) : Prop :=
  ∀ f ∈ tx, f ∉ nm

instance (tx nm : List String) : Decidable (Disj tx nm) := by
  unfold Disj
  infer_instance

/-! ## Claim C10 -/
/-- Invariant of the unspecified-schema read over string-valued sources: the
numeric set stays empty and every stored cell is a string whose field is in
the text set. -/
def TxtInv (s : RState) : Prop :=
  s.nm = [] ∧ ∀ q ∈ s.content, ∀ p ∈ q.2, p.1 ∈ s.tx ∧ ∃ str, p.2 = Value.txt str

/-! ## Claim C5, definitions and per-field lemmas -/
/-- The value the specified-schema read stores for a field whose raw cell
is a string: parsed as an int literal when the field is numeric-declared,
kept as text otherwise. -/
def readVal (nmL : List String) (f : String) (raw : String) : Option Value :=
  if f ∈ nmL then
    match literalEvalInt raw with
    | some n => some (.num n)
    | none => none
  else some (.txt raw)

/-- The row key the csv read-back assigns to a record: the raw string of
its index cell. -/
def kvOfT (T : Table) (rec : Record) : K :=
  some (.txt (readCell (cellF rec T.indexField)))

/-- The record the csv read-back reconstructs: one entry per header field,
in header order. -/
def recOutT (T : Table) (rec : Record) : Record :=
  (fieldnamesOf T).map (fun f =>
    (f, (readVal T.numTypeFields f (readCell (cellF rec f))).getD (.txt "")))

/-- Conditions on one row for the csv round trip: no repeated fields, all
fields inside the schema and every schema field present, numeric-declared
cells numeric and all other cells text. -/
def RowCond (T : Table) (rec : Record) : Prop :=
  (rec.map Prod.fst).Nodup ∧
  (∀ p ∈ rec, p.1 ∈ T.fields) ∧
  (∀ f ∈ T.fields, containsA rec f = true) ∧
  (∀ p ∈ rec, (p.1 ∈ T.numTypeFields → isNumV p.2 = true) ∧
              (p.1 ∉ T.numTypeFields → isTxtV p.2 = true))

/-- Conditions on a table for the csv round trip: the index field declared,
every row complete and well typed, and the index values pairwise distinct. -/
def RTok (T : Table) : Prop :=
  T.indexField ∈ T.fields ∧
  (∀ q ∈ T.indexedContent, RowCond T q.2) ∧
  (T.indexedContent.map (fun q => lookupA q.2 T.indexField)).Nodup

instance (T : Table) (rec : Record) : Decidable (RowCond T rec) := by
  unfold RowCond
  infer_instance

instance (T : Table) : Decidable (RTok T) := by
  unfold RTok
  infer_instance

/-- A complete, well-typed one-row table used as round-trip witness. -/
def tblRT : Table :=
  ⟨"id", ["id", "name"], ["amount"],
    [(some (.txt "7"), [("id", .txt "7"), ("name", .txt "a|v\"x"), ("amount", .num (-10))])]⟩

/-- A table whose single record lacks the declared field name. -/
def tbl5 : Table := ⟨"id", ["id", "name"], [], [(some (.txt "0"), [("id", .txt "0")])]⟩

/-- What reading the csv of tbl5 back produces: the missing cell comes back
as the empty string rather than staying absent. -/
def tbl5r : Table :=
  ⟨"id", ["id", "name"], [], [(some (.txt "0"), [("id", .txt "0"), ("name", .txt "")])]⟩

/-! ## Claim C6 -/
/-- A table holding a single numeric cell. -/
def tblNum : Table := ⟨"id", [], ["id"], [(some (.num 0), [("id", .num 0)])]⟩

/-- A table mixing text cells and a zero numeric cell. -/
def tblQW : Table :=
  ⟨"id", ["id", "name"], ["amount"],
    [(some (.txt "7"), [("id", .txt "7"), ("name", .txt "a|v\"x"), ("amount", .num 0)])]⟩


/-! ## Lemmas about the dict operations -/
theorem lookupA_insertA_self {α : Type} [DecidableEq α] {β : Type}
    (l : List (α × β)) (k : α) (v : β) : lookupA (insertA l k v) k = some v := by
  induction l with
  | nil => simp [insertA, lookupA]
  | cons p rest ih =>
    obtain ⟨a, b⟩ := p
    by_cases h : a = k <;> simp [insertA, lookupA, h, ih]

theorem lookupA_insertA_ne {α : Type} [DecidableEq α] {β : Type}
    (l : List (α × β)) (k k' : α) (v : β) (h : k' ≠ k) :
    lookupA (insertA l k v) k' = lookupA l k' := by
  induction l with
  | nil => simp [insertA, lookupA, Ne.symm h]
  | cons p rest ih =>
    obtain ⟨a, b⟩ := p
    by_cases ha : a = k
    · subst ha
      simp [insertA, lookupA, Ne.symm h]
    · simp [insertA, lookupA, ha, ih]

theorem insertA_lookup_self {α : Type} [DecidableEq α] {β : Type}
    {l : List (α × β)} {k : α} {v : β} (h : lookupA l k = some v) :
    insertA l k v = l := by
  induction l with
  | nil => simp [lookupA] at h
  | cons p rest ih =>
    obtain ⟨a, b⟩ := p
    by_cases ha : a = k
    · subst ha
      simp [lookupA] at h
      simp [insertA, h]
    · simp [lookupA, ha] at h
      simp [insertA, ha, ih h]

theorem modifyA_lookup_id {α : Type} [DecidableEq α] {β : Type}
    {l : List (α × β)} {k : α} {g : β → β}
    (h : ∀ r, lookupA l k = some r → g r = r) : modifyA l k g = l := by
  induction l with
  | nil => simp [modifyA]
  | cons p rest ih =>
    obtain ⟨a, b⟩ := p
    by_cases ha : a = k
    · subst ha
      have := h b (by simp [lookupA])
      simp [modifyA, this]
    · simp [lookupA, ha] at h
      simp [modifyA, ha, ih h]

theorem lookupA_modifyA_self {α : Type} [DecidableEq α] {β : Type}
    (l : List (α × β)) (k : α) (g : β → β) :
    lookupA (modifyA l k g) k = (lookupA l k).map g := by
  induction l with
  | nil => simp [modifyA, lookupA]
  | cons p rest ih =>
    obtain ⟨a, b⟩ := p
    by_cases ha : a = k <;> simp [modifyA, lookupA, ha, ih]

theorem lookupA_modifyA_ne {α : Type} [DecidableEq α] {β : Type}
    (l : List (α × β)) (k k' : α) (g : β → β) (h : k' ≠ k) :
    lookupA (modifyA l k g) k' = lookupA l k' := by
  induction l with
  | nil => simp [modifyA]
  | cons p rest ih =>
    obtain ⟨a, b⟩ := p
    by_cases ha : a = k
    · subst ha
      simp [modifyA, lookupA, Ne.symm h]
    · simp [modifyA, lookupA, ha, ih]

theorem lookupA_mem {α : Type} [DecidableEq α] {β : Type}
    {l : List (α × β)} {k : α} {v : β} (h : lookupA l k = some v) : (k, v) ∈ l := by
  induction l with
  | nil => simp [lookupA] at h
  | cons p rest ih =>
    obtain ⟨a, b⟩ := p
    by_cases ha : a = k
    · subst ha
      simp [lookupA] at h
      simp [h]
    · simp [lookupA, ha] at h
      simp [ih h]

theorem lookupA_isSome_of_mem {α : Type} [DecidableEq α] {β : Type}
    {l : List (α × β)} {k : α} {v : β} (h : (k, v) ∈ l) :
    (lookupA l k).isSome = true := by
  induction l with
  | nil => simp at h
  | cons p rest ih =>
    obtain ⟨a, b⟩ := p
    rcases List.mem_cons.1 h with h' | h'
    · obtain ⟨h1, h2⟩ := Prod.mk.injEq .. ▸ h'
      simp [lookupA, h1.symm]
    · by_cases ha : a = k <;> simp [lookupA, ha, ih h']

theorem lookupA_eq_none {α : Type} [DecidableEq α] {β : Type}
    {l : List (α × β)} {k : α} (h : k ∉ l.map Prod.fst) : lookupA l k = none := by
  induction l with
  | nil => simp [lookupA]
  | cons p rest ih =>
    obtain ⟨a, b⟩ := p
    simp only [List.map_cons, List.mem_cons, not_or] at h
    have hk : ¬a = k := fun e => h.1 e.symm
    simp [lookupA, hk, ih (by simpa using h.2)]

theorem lookupA_of_nodup_mem {α : Type} [DecidableEq α] {β : Type}
    {l : List (α × β)} (hn : (l.map Prod.fst).Nodup) {k : α} {v : β}
    (h : (k, v) ∈ l) : lookupA l k = some v := by
  induction l with
  | nil => simp at h
  | cons p rest ih =>
    obtain ⟨a, b⟩ := p
    simp only [List.map_cons, List.nodup_cons] at hn
    rcases List.mem_cons.1 h with h' | h'
    · have h1 : k = a ∧ v = b := by simpa using h'
      obtain ⟨rfl, rfl⟩ := h1
      simp [lookupA]
    · have hak : a ≠ k := by
        intro hak
        subst hak
        exact hn.1 (List.mem_map_of_mem Prod.fst h')
      simp [lookupA, hak, ih hn.2 h']

theorem insertA_fresh {α : Type} [DecidableEq α] {β : Type}
    {l : List (α × β)} {k : α} (h : lookupA l k = none) (v : β) :
    insertA l k v = l ++ [(k, v)] := by
  induction l with
  | nil => simp [insertA]
  | cons p rest ih =>
    obtain ⟨a, b⟩ := p
    by_cases ha : a = k
    · simp [lookupA, ha] at h
    · simp [lookupA, ha] at h
      simp [insertA, ha, ih h]

theorem map_fst_insertA {α : Type} [DecidableEq α] {β : Type}
    (l : List (α × β)) (k : α) (v : β) :
    (insertA l k v).map Prod.fst = if (lookupA l k).isSome then l.map Prod.fst
      else l.map Prod.fst ++ [k] := by
  induction l with
  | nil => simp [insertA, lookupA]
  | cons p rest ih =>
    obtain ⟨a, b⟩ := p
    by_cases ha : a = k
    · simp [insertA, lookupA, ha]
    · by_cases hr : (lookupA rest k).isSome <;>
        simp [insertA, lookupA, ha, hr] at ih ⊢ <;> simp [ih]

theorem map_fst_modifyA {α : Type} [DecidableEq α] {β : Type}
    (l : List (α × β)) (k : α) (g : β → β) :
    (modifyA l k g).map Prod.fst = l.map Prod.fst := by
  induction l with
  | nil => simp [modifyA]
  | cons p rest ih =>
    obtain ⟨a, b⟩ := p
    by_cases ha : a = k <;> simp [modifyA, ha, ih]

/-! ## Lemmas about dedupL and the string sort -/
theorem mem_dedupGo (x : String) : ∀ (l seen : List String),
    x ∈ dedupGo seen l ↔ x ∈ l ∧ x ∉ seen := by
  intro l
  induction l with
  | nil => simp [dedupGo]
  | cons a rest ih =>
    intro seen
    by_cases ha : a ∈ seen
    · rw [dedupGo, if_pos ha, ih]
      constructor
      · rintro ⟨h1, h2⟩
        exact ⟨List.mem_cons_of_mem _ h1, h2⟩
      · rintro ⟨h1, h2⟩
        rcases List.mem_cons.1 h1 with rfl | h1
        · exact absurd ha h2
        · exact ⟨h1, h2⟩
    · rw [dedupGo, if_neg ha]
      constructor
      · intro h
        rcases List.mem_cons.1 h with rfl | h
        · exact ⟨List.mem_cons_self _ _, ha⟩
        · rw [ih] at h
          simp at h
          exact ⟨List.mem_cons_of_mem _ h.1, h.2.2⟩
      · rintro ⟨h1, h2⟩
        rcases List.mem_cons.1 h1 with rfl | h1
        · exact List.mem_cons_self _ _
        · by_cases hx : x = a
          · subst hx
            exact List.mem_cons_self _ _
          · exact List.mem_cons_of_mem _ ((ih _).2 ⟨h1, by simp [hx, h2]⟩)

theorem mem_dedupL {x : String} {l : List String} : x ∈ dedupL l ↔ x ∈ l := by
  rw [dedupL, mem_dedupGo]
  simp

theorem nodup_dedupGo : ∀ (l seen : List String), (dedupGo seen l).Nodup := by
  intro l
  induction l with
  | nil => simp [dedupGo]
  | cons a rest ih =>
    intro seen
    by_cases ha : a ∈ seen
    · rw [dedupGo, if_pos ha]
      exact ih seen
    · rw [dedupGo, if_neg ha]
      refine List.nodup_cons.2 ⟨fun hmem => ?_, ih _⟩
      rw [mem_dedupGo] at hmem
      exact hmem.2 (List.mem_cons_self _ _)

theorem nodup_dedupL (l : List String) : (dedupL l).Nodup :=
  nodup_dedupGo l []

theorem mem_insStr {x a : String} {l : List String} :
    x ∈ insStr a l ↔ x = a ∨ x ∈ l := by
  induction l with
  | nil => simp [insStr]
  | cons b bs ih =>
    by_cases h : strLe a b
    · simp [insStr, h]
    · simp [insStr, h, ih]
      tauto

theorem mem_isortStr {x : String} {l : List String} : x ∈ isortStr l ↔ x ∈ l := by
  induction l with
  | nil => simp [isortStr]
  | cons b bs ih => simp [isortStr, mem_insStr, ih]

theorem nodup_insStr {a : String} {l : List String} (ha : a ∉ l) (hl : l.Nodup) :
    (insStr a l).Nodup := by
  induction l with
  | nil => simp [insStr]
  | cons b bs ih =>
    simp at ha
    rcases List.nodup_cons.1 hl with ⟨hb, hbs⟩
    by_cases h : strLe a b
    · rw [insStr, if_pos h]
      refine List.nodup_cons.2 ⟨?_, hl⟩
      simp [ha.1, ha.2]
    · rw [insStr, if_neg h]
      refine List.nodup_cons.2 ⟨?_, ih ha.2 hbs⟩
      rw [mem_insStr]
      rintro (rfl | hc)
      · exact ha.1 rfl
      · exact hb hc

theorem nodup_isortStr {l : List String} (h : l.Nodup) : (isortStr l).Nodup := by
  induction l with
  | nil => simp [isortStr]
  | cons b bs ih =>
    rcases List.nodup_cons.1 h with ⟨hb, hbs⟩
    exact nodup_insStr (fun hc => hb (mem_isortStr.1 hc)) (ih hbs)

/-- The fieldnames of toCsv contain exactly the fields (when the index field
is one of them) and never repeat. -/
theorem mem_fieldnamesOf {T : Table} (hix : T.indexField ∈ T.fields) {f : String} :
    f ∈ fieldnamesOf T ↔ f ∈ T.fields := by
  rw [fieldnamesOf]
  constructor
  · intro h
    rcases List.mem_cons.1 h with rfl | h
    · exact hix
    · rw [mem_isortStr] at h
      exact (List.mem_filter.1 h).1
  · intro h
    by_cases hf : f = T.indexField
    · simp [hf]
    · exact List.mem_cons_of_mem _ (mem_isortStr.2 (List.mem_filter.2 ⟨h, by simp [hf]⟩))

theorem nodup_fieldnamesOf (T : Table) : (fieldnamesOf T).Nodup := by
  refine List.nodup_cons.2 ⟨fun h => ?_, nodup_isortStr (List.Nodup.filter _ (nodup_dedupL _))⟩
  rw [mem_isortStr] at h
  have := (List.mem_filter.1 h).2
  simp at this

/-! ## Lemmas about integer literals -/
theorem chDigit?_digitCh {d : Nat} (h : d < 10) : chDigit? (digitCh d) = some d := by
  interval_cases d <;> decide

theorem digitCh_ne_quote (d : Nat) : digitCh d ≠ '"' := by
  unfold digitCh
  split_ifs <;> decide

theorem digitCh_ne_dash (d : Nat) : digitCh d ≠ '-' := by
  unfold digitCh
  split_ifs <;> decide

theorem digitCh_eq_zeroCh {d : Nat} (h : digitCh d = '0') : d = 0 := by
  by_contra hd
  unfold digitCh at h
  split_ifs at h <;> simp_all

theorem digitsOfChars_map {ds : List Nat} (h : ∀ d ∈ ds, d < 10) :
    digitsOfChars (ds.map digitCh) = some ds := by
  induction ds with
  | nil => rfl
  | cons d rest ih =>
    have hd := h d (List.mem_cons_self _ _)
    have hrest := ih (fun x hx => h x (List.mem_cons_of_mem _ hx))
    simp [digitsOfChars, chDigit?_digitCh hd, hrest]

theorem natToStr_data (n : Nat) (h : n ≠ 0) :
    (natToStr n).data = ((Nat.digits 10 n).map digitCh).reverse := by
  rw [natToStr, if_neg h]

theorem parseNatLit_natToStr (n : Nat) : parseNatLit (natToStr n).data = some n := by
  by_cases h : n = 0
  · subst h
    decide
  · rw [natToStr_data n h]
    have hlt : ∀ d ∈ (Nat.digits 10 n).reverse, d < 10 := fun d hd =>
      Nat.digits_lt_base (by norm_num) (List.mem_reverse.1 hd)
    have hmap : ((Nat.digits 10 n).map digitCh).reverse
        = ((Nat.digits 10 n).reverse).map digitCh := by simp
    have hne : Nat.digits 10 n ≠ [] := Nat.digits_ne_nil_iff_ne_zero.2 h
    have hne' : (Nat.digits 10 n).reverse.map digitCh ≠ [] := by
      simp [hne]
    have hhead : ((Nat.digits 10 n).reverse.map digitCh).head? ≠ some '0' := by
      rw [List.head?_map]
      intro hc
      rcases Option.map_eq_some.mp hc with ⟨d, hd1, hd2⟩
      have hdg : d = (Nat.digits 10 n).getLast hne := by
        have h2 := List.head?_reverse (Nat.digits 10 n)
        rw [hd1, List.getLast?_eq_getLast _ hne] at h2
        exact (Option.some.injEq .. ▸ h2)
      exact Nat.getLast_digit_ne_zero 10 h (hdg ▸ digitCh_eq_zeroCh hd2)
    rw [hmap, parseNatLit, digitsOfChars_map hlt]
    show (if (Nat.digits 10 n).reverse.map digitCh = [] then none
      else if 1 < ((Nat.digits 10 n).reverse.map digitCh).length ∧
          ((Nat.digits 10 n).reverse.map digitCh).head? = some '0' then none
      else some (Nat.ofDigits 10 ((Nat.digits 10 n).reverse).reverse)) = some n
    rw [if_neg hne', if_neg (fun hB => hhead hB.2), List.reverse_reverse,
      Nat.ofDigits_digits]

theorem natToStr_head (n : Nat) :
    ∃ c rest, (natToStr n).data = c :: rest ∧ c ≠ '"' ∧ c ≠ '-' := by
  by_cases h : n = 0
  · exact ⟨'0', [], by subst h; decide⟩
  · rw [natToStr_data n h]
    have hne : Nat.digits 10 n ≠ [] := Nat.digits_ne_nil_iff_ne_zero.2 h
    have : ((Nat.digits 10 n).map digitCh).reverse
        = ((Nat.digits 10 n).reverse).map digitCh := by simp
    rw [this]
    rcases List.exists_cons_of_ne_nil (by simp [hne] :
        (Nat.digits 10 n).reverse ≠ []) with ⟨d, ds, hds⟩
    exact ⟨digitCh d, ds.map digitCh, by rw [hds]; simp,
      digitCh_ne_quote d, digitCh_ne_dash d⟩

theorem literalEvalInt_cons {s : String} {c : Char} {rest : List Char}
    (h : s.data = c :: rest) :
    literalEvalInt s = if c = '-' then
        (match parseNatLit rest with
         | none => none
         | some n => some (-(n : Int)))
      else
        (match parseNatLit (c :: rest) with
         | none => none
         | some n => some ((n : Int))) := by
  rw [literalEvalInt, h]

theorem literalEvalInt_intToStr (i : Int) : literalEvalInt (intToStr i) = some i := by
  by_cases h : i < 0
  · have hdata2 : (intToStr i).data = '-' :: (natToStr i.natAbs).data := by
      rw [intToStr, if_pos h, String.data_append]
      rfl
    rw [literalEvalInt_cons hdata2, if_pos rfl, parseNatLit_natToStr]
    rw [Option.some.injEq]
    omega
  · rcases natToStr_head i.toNat with ⟨c, rest, hdata, _, hc2⟩
    have hdata2 : (intToStr i).data = c :: rest := by
      rw [intToStr, if_neg h, hdata]
    rw [literalEvalInt_cons hdata2, if_neg hc2, ← hdata, parseNatLit_natToStr]
    rw [Option.some.injEq]
    omega

theorem intToStr_inj {a b : Int} (h : intToStr a = intToStr b) : a = b := by
  have ha := literalEvalInt_intToStr a
  rw [h, literalEvalInt_intToStr b] at ha
  injection ha with h1
  exact h1.symm

theorem unescapeQ_cons_ne {c : Char} (h : c ≠ '"') (l : List Char) :
    unescapeQ (c :: l) = c :: unescapeQ l := by
  cases l <;> simp [unescapeQ, h]

theorem unescapeQ_quotes (l : List Char) :
    unescapeQ ('"' :: '"' :: l) = '"' :: unescapeQ l := by
  simp [unescapeQ]

theorem unescapeQ_escapeQ (l : List Char) : unescapeQ (escapeQ l) = l := by
  induction l with
  | nil => rfl
  | cons c rest ih =>
    by_cases h : c = '"'
    · subst h
      rw [escapeQ, if_pos rfl, unescapeQ_quotes, ih]
    · rw [escapeQ, if_neg h, unescapeQ_cons_ne h, ih]

theorem readCell_cons {s : String} {c : Char} {rest : List Char}
    (h : s.data = c :: rest) :
    readCell s = if c = '"' then
        (if rest.getLast? = some '"' then String.mk (unescapeQ rest.dropLast) else s)
      else s := by
  rw [readCell, h]

theorem readCell_writeCell (v : Value) : readCell (writeCell v) = rawStr v := by
  cases v with
  | txt s =>
    have hdata : (writeCell (.txt s)).data = '"' :: (escapeQ s.data ++ ['"']) := rfl
    rw [rawStr, readCell_cons hdata, if_pos rfl, if_pos (by simp)]
    have h1 : (escapeQ s.data ++ ['"']).dropLast = escapeQ s.data := by simp
    rw [h1, unescapeQ_escapeQ]
  | num n =>
    show readCell (intToStr n) = intToStr n
    by_cases h : n < 0
    · have hdata2 : (intToStr n).data = '-' :: (natToStr n.natAbs).data := by
        rw [intToStr, if_pos h, String.data_append]
        rfl
      rw [readCell_cons hdata2, if_neg (by decide)]
    · rcases natToStr_head n.toNat with ⟨c', rest', hdata', hq', _⟩
      have hdata2 : (intToStr n).data = c' :: rest' := by
        rw [intToStr, if_neg h, hdata']
      rw [readCell_cons hdata2, if_neg hq']

theorem isQuotedCell_cons {s : String} {c : Char} {rest : List Char}
    (h : s.data = c :: rest) :
    isQuotedCell s = (c = '"' && rest.getLast? = some '"') := by
  rw [isQuotedCell, h]

theorem isQuotedCell_writeCell_txt (s : String) :
    isQuotedCell (writeCell (.txt s)) = true := by
  have hdata : (writeCell (.txt s)).data = '"' :: (escapeQ s.data ++ ['"']) := rfl
  rw [isQuotedCell_cons hdata]
  simp

theorem isQuotedCell_writeCell_num (n : Int) :
    isQuotedCell (writeCell (.num n)) = false := by
  show isQuotedCell (intToStr n) = false
  by_cases h : n < 0
  · have hdata2 : (intToStr n).data = '-' :: (natToStr n.natAbs).data := by
      rw [intToStr, if_pos h, String.data_append]
      rfl
    rw [isQuotedCell_cons hdata2]
    simp
  · rcases natToStr_head n.toNat with ⟨c, rest, hdata, hq, _⟩
    have hdata2 : (intToStr n).data = c :: rest := by
      rw [intToStr, if_neg h, hdata]
    rw [isQuotedCell_cons hdata2]
    simp [hq]

theorem writeCell_txt_ne_intToStr (s : String) (n : Int) :
    writeCell (.txt s) ≠ intToStr n := by
  intro hc
  have h1 := isQuotedCell_writeCell_txt s
  have h2 := isQuotedCell_writeCell_num n
  rw [show writeCell (.num n) = intToStr n from rfl] at h2
  rw [hc, h2] at h1
  exact Bool.false_ne_true h1

/-! ## Lemmas about record equality and the sorted comparison -/
theorem dictBeq_lookup {r s : Record} (h : dictBeq r s = true) (f : String) :
    lookupA r f = lookupA s f := by
  rw [dictBeq, Bool.and_eq_true] at h
  simp only [List.all_eq_true, decide_eq_true_eq] at h
  obtain ⟨h1, h2⟩ := h
  cases hr : lookupA r f with
  | some v => exact (h1 (f, v) (lookupA_mem hr)).symm
  | none =>
    cases hs : lookupA s f with
    | some w => exact absurd (h2 (f, w) (lookupA_mem hs)) (by simp [hr])
    | none => rfl

theorem dictBeq_of_lookup {r s : Record} (hr : (r.map Prod.fst).Nodup)
    (hs : (s.map Prod.fst).Nodup) (h : ∀ f, lookupA r f = lookupA s f) :
    dictBeq r s = true := by
  rw [dictBeq, Bool.and_eq_true]
  simp only [List.all_eq_true, decide_eq_true_eq]
  constructor
  · intro p hp
    rw [← h p.1]
    exact lookupA_of_nodup_mem hr hp
  · intro p hp
    rw [h p.1]
    exact lookupA_of_nodup_mem hs hp

theorem insRec_forall2 {ixf : String} {r s : Record} (hrs : dictBeq r s = true)
    {xs ys : List Record} (h : List.Forall₂ (fun a b => dictBeq a b = true) xs ys) :
    List.Forall₂ (fun a b => dictBeq a b = true) (insRec ixf r xs) (insRec ixf s ys) := by
  induction h with
  | nil => exact List.Forall₂.cons hrs List.Forall₂.nil
  | @cons x y xs ys hxy hrest ih =>
    rw [insRec, insRec, dictBeq_lookup hrs ixf, dictBeq_lookup hxy ixf]
    by_cases hc : valLe (lookupA s ixf) (lookupA y ixf)
    · rw [if_pos hc, if_pos hc]
      exact .cons hrs (.cons hxy hrest)
    · rw [if_neg hc, if_neg hc]
      exact .cons hxy ih

theorem isortRecs_forall2 {ixf : String} {xs ys : List Record}
    (h : List.Forall₂ (fun a b => dictBeq a b = true) xs ys) :
    List.Forall₂ (fun a b => dictBeq a b = true) (isortRecs ixf xs) (isortRecs ixf ys) := by
  induction h with
  | nil => exact .nil
  | @cons x y xs ys hxy hrest ih =>
    rw [isortRecs, isortRecs]
    exact insRec_forall2 hxy ih

theorem recListBeq_of_forall2 {xs ys : List Record}
    (h : List.Forall₂ (fun a b => dictBeq a b = true) xs ys) :
    recListBeq xs ys = true := by
  induction h with
  | nil => rfl
  | @cons x y xs ys hxy hrest ih => simp [recListBeq, hxy, ih]

theorem setBeq_refl (l : List String) : setBeq l l = true := by
  simp [setBeq, List.all_eq_true]

theorem tableEqPy_of_forall2 {A B : Table}
    (hix : A.indexField = B.indexField)
    (htx : setBeq A.txtTypeFields B.txtTypeFields = true)
    (hnm : setBeq A.numTypeFields B.numTypeFields = true)
    (h : List.Forall₂ (fun a b => dictBeq a b = true) A.records B.records) :
    tableEqPy A B = true := by
  rw [tableEqPy]
  simp only [Bool.and_eq_true]
  refine ⟨⟨⟨recListBeq_of_forall2 (isortRecs_forall2 h), ?_⟩, htx⟩, hnm⟩
  simp [hix]

/-! ## More dict lemmas used by the read and merge proofs -/
theorem lookupA_append {α : Type} [DecidableEq α] {β : Type}
    (l1 l2 : List (α × β)) (k : α) :
    lookupA (l1 ++ l2) k = match lookupA l1 k with
      | some v => some v
      | none => lookupA l2 k := by
  induction l1 with
  | nil => simp [lookupA]
  | cons p rest ih =>
    obtain ⟨a, b⟩ := p
    by_cases ha : a = k <;> simp [lookupA, ha, ih]

theorem modifyA_append_last {α : Type} [DecidableEq α] {β : Type}
    {l : List (α × β)} {k : α} (h : lookupA l k = none) (r : β) (g : β → β) :
    modifyA (l ++ [(k, r)]) k g = l ++ [(k, g r)] := by
  induction l with
  | nil => simp [modifyA]
  | cons p rest ih =>
    obtain ⟨a, b⟩ := p
    by_cases ha : a = k
    · simp [lookupA, ha] at h
    · simp [lookupA, ha] at h
      simp [modifyA, ha, ih h]

theorem foldl_insertA_fresh {α : Type} [DecidableEq α] {β : Type} :
    ∀ (l acc : List (α × β)),
    (∀ p ∈ l, lookupA acc p.1 = none) → (l.map Prod.fst).Nodup →
    l.foldl (fun r p => insertA r p.1 p.2) acc = acc ++ l := by
  intro l
  induction l with
  | nil => simp
  | cons p rest ih =>
    intro acc hfresh hnod
    simp only [List.map_cons, List.nodup_cons] at hnod
    have h1 : insertA acc p.1 p.2 = acc ++ [p] := by
      rw [insertA_fresh (hfresh p (List.mem_cons_self _ _)) p.2]
    rw [List.foldl_cons, h1, ih (acc ++ [p]) ?_ hnod.2, List.append_assoc]
    · rfl
    · intro p' hp'
      rw [lookupA_append]
      have hne : p.1 ≠ p'.1 := by
        intro hc
        exact hnod.1 (hc ▸ List.mem_map_of_mem Prod.fst hp')
      rw [hfresh p' (List.mem_cons_of_mem _ hp')]
      simp [lookupA, hne]

theorem lookupA_map_some (rec : Record) (f : String) :
    lookupA (rec.map (fun p => (p.1, some p.2))) f = (lookupA rec f).map some := by
  induction rec with
  | nil => simp [lookupA]
  | cons p rest ih =>
    obtain ⟨a, b⟩ := p
    by_cases ha : a = f <;> simp [lookupA, ha, ih]

theorem readSpecDataset_eq {ixf : String} {fieldsL nmL : List String}
    {c0 : List (K × Record)} {d : Dataset} {kv : K}
    (h : lookupA d.pairs ixf = some kv) :
    readSpecDataset ixf fieldsL nmL c0 d
      = d.pairs.foldl (stepSpec fieldsL nmL kv) (some (insertA c0 kv [])) := by
  rw [readSpecDataset, h]

theorem stepSpec_typed {fieldsL nmL : List String} {kv : K}
    {c0 : List (K × Record)} (h0 : lookupA c0 kv = none)
    {f : String} {v : Value} (hf : f ∈ fieldsL)
    (hv : f ∈ nmL → isNumV v = true) (r : Record) :
    stepSpec fieldsL nmL kv (some (c0 ++ [(kv, r)])) (f, some v)
      = some (c0 ++ [(kv, insertA r f v)]) := by
  cases v with
  | txt str =>
    have hfn : f ∉ nmL := by
      intro hc
      simp [isNumV] at hv
      exact hv hc
    rw [stepSpec]
    simp only [if_pos hf, if_neg hfn]
    rw [modifyA_append_last h0]
  | num n =>
    rw [stepSpec]
    simp only [if_pos hf]
    rw [modifyA_append_last h0]

theorem foldl_stepSpec_typed {fieldsL nmL : List String} {kv : K}
    {c0 : List (K × Record)} (h0 : lookupA c0 kv = none) :
    ∀ (rec r : Record),
    (∀ p ∈ rec, p.1 ∈ fieldsL) →
    (∀ p ∈ rec, p.1 ∈ nmL → isNumV p.2 = true) →
    (rec.map (fun p => (p.1, some p.2))).foldl (stepSpec fieldsL nmL kv)
        (some (c0 ++ [(kv, r)]))
      = some (c0 ++ [(kv, rec.foldl (fun r p => insertA r p.1 p.2) r)]) := by
  intro rec
  induction rec with
  | nil => intro r _ _; rfl
  | cons p rest ih =>
    intro r hkeys hnum
    obtain ⟨f, v⟩ := p
    rw [List.map_cons, List.foldl_cons,
      stepSpec_typed h0 (hkeys (f, v) (List.mem_cons_self _ _))
        (hnum (f, v) (List.mem_cons_self _ _)) r,
      ih (insertA r f v) (fun p hp => hkeys p (List.mem_cons_of_mem _ hp))
        (fun p hp => hnum p (List.mem_cons_of_mem _ hp)),
      List.foldl_cons]

theorem readSpecDataset_copy {T : Table} {q : K × Record} (hq : WFrow T q)
    {c0 : List (K × Record)} (h0 : lookupA c0 q.1 = none) :
    readSpecDataset T.indexField T.fields T.numTypeFields c0
      ⟨q.2.map (fun p => (p.1, some p.2)), false⟩ = some (c0 ++ [(q.1, q.2)]) := by
  obtain ⟨hnod, hkeys, ⟨hself, hsome⟩, hnum⟩ := hq
  have hlk : lookupA (q.2.map (fun p => (p.1, some p.2))) T.indexField = some q.1 := by
    rw [lookupA_map_some, hself]
    cases hk : q.1 with
    | none => rw [hk] at hsome; simp at hsome
    | some v0 => rfl
  rw [readSpecDataset_eq hlk, insertA_fresh h0,
    foldl_stepSpec_typed h0 q.2 [] hkeys hnum,
    foldl_insertA_fresh q.2 [] (fun p _ => rfl) hnod]
  rfl

theorem foldSpec_copy {T : Table} :
    ∀ (rows acc : List (K × Record)),
    (∀ q ∈ rows, WFrow T q) →
    (acc.map Prod.fst ++ rows.map Prod.fst).Nodup →
    (rows.map (fun q => (⟨q.2.map (fun p => (p.1, some p.2)), false⟩ : Dataset))).foldl
        (foldSpec T.indexField T.fields T.numTypeFields) (some acc)
      = some (acc ++ rows) := by
  intro rows
  induction rows with
  | nil => intro acc _ _; simp
  | cons q rest ih =>
    intro acc hrows hnod
    have h0 : lookupA acc q.1 = none := by
      apply lookupA_eq_none
      intro hc
      rw [List.map_cons] at hnod
      have := (List.nodup_append.1 hnod).2.2
      exact this hc (List.mem_cons_self _ _)
    have hstep : foldSpec T.indexField T.fields T.numTypeFields (some acc)
        ⟨q.2.map (fun p => (p.1, some p.2)), false⟩ = some (acc ++ [q]) := by
      show readSpecDataset T.indexField T.fields T.numTypeFields acc
        ⟨q.2.map (fun p => (p.1, some p.2)), false⟩ = some (acc ++ [q])
      exact readSpecDataset_copy (hrows q (List.mem_cons_self _ _)) h0
    rw [List.map_cons, List.foldl_cons, hstep,
      ih (acc ++ [q]) (fun p hp => hrows p (List.mem_cons_of_mem _ hp))
        (by simpa using hnod), List.append_assoc]
    rfl

theorem copyTable_eq_self {T : Table} (h : WF T) : copyTable T = some T := by
  obtain ⟨hix, hnodK, hrows⟩ := h
  by_cases hf : T.fields = []
  · have hc : T.indexedContent = [] := by
      cases hic : T.indexedContent with
      | nil => rfl
      | cons q rest =>
        exfalso
        have hq := hrows q (hic ▸ List.mem_cons_self q rest)
        obtain ⟨_, hkeys, ⟨hself, hsome⟩, _⟩ := hq
        cases hk : q.1 with
        | none => rw [hk] at hsome; simp at hsome
        | some v0 =>
          rw [hk] at hself
          have hm := hkeys _ (lookupA_mem hself)
          rw [hf] at hm
          simp at hm
    rw [copyTable, mkTable]
    rw [show dedupL (T.txtTypeFields ++ T.numTypeFields) = T.fields from rfl]
    rw [if_neg (by simp [hf]), if_pos hf, hc]
    show some (⟨T.indexField, T.txtTypeFields, T.numTypeFields, []⟩ : Table) = some T
    rw [← hc]
  · rw [copyTable, mkTable]
    rw [show dedupL (T.txtTypeFields ++ T.numTypeFields) = T.fields from rfl]
    rw [if_neg (by rintro ⟨_, h2⟩; exact h2 (hix hf))]
    rw [if_neg hf]
    have hds : datasetsOf (.rows (T.indexedContent.map
          (fun q => q.2.map (fun p => (p.1, some p.2)))))
        = T.indexedContent.map
          (fun q => (⟨q.2.map (fun p => (p.1, some p.2)), false⟩ : Dataset)) := by
      rw [datasetsOf, List.map_map]
      rfl
    rw [hds, foldSpec_copy T.indexedContent [] hrows (by simpa using hnodK)]
    rfl

/-! ## Lemmas about the merge loop -/
theorem withFieldAdded_resContent (B : Table) (f : String) (s : MState) :
    (withFieldAdded B f s).resContent = s.resContent := rfl

theorem withFieldAdded_bContent (B : Table) (f : String) (s : MState) :
    (withFieldAdded B f s).bContent = s.bContent := rfl

theorem withFieldAdded_ok (B : Table) (f : String) (s : MState) :
    (withFieldAdded B f s).ok = s.ok := rfl

theorem withFieldAdded_aliased (B : Table) (f : String) (s : MState) :
    (withFieldAdded B f s).aliased = s.aliased := rfl

/-- Every write the merge loop performs into the content of the right
operand stores the value the field already has, so that content never
changes, not even on the error path. -/
theorem stepFieldRest_write {i : K} {s : MState} {f : String} {rec : Record} {v : Value}
    (hcont : containsA s.resContent i = true)
    (hrec : lookupA s.bContent i = some rec) (hv : lookupA rec f = some v) :
    stepFieldRest i s f = { s with
      resContent := modifyA s.resContent i (fun r => insertA r f v),
      bContent := if i ∈ s.aliased then modifyA s.bContent i (fun r => insertA r f v)
                  else s.bContent } := by
  rw [stepFieldRest, if_pos hcont]
  split
  · rename_i heq
    exact absurd heq (by rw [hrec]; simp)
  · rename_i rec' heq
    rw [hrec, Option.some.injEq] at heq
    subst heq
    split
    · rename_i hveq
      exact absurd hveq (by rw [hv]; simp)
    · rename_i v' hveq
      rw [hv, Option.some.injEq] at hveq
      subst hveq
      rfl

theorem stepFieldRest_keyError {i : K} {s : MState} {f : String} {rec : Record}
    (hcont : containsA s.resContent i = true)
    (hrec : lookupA s.bContent i = some rec) (hv : lookupA rec f = none) :
    stepFieldRest i s f = { s with ok := false } := by
  rw [stepFieldRest, if_pos hcont]
  split
  · rename_i heq
    exact absurd heq (by rw [hrec]; simp)
  · rename_i rec' heq
    rw [hrec, Option.some.injEq] at heq
    subst heq
    split
    · rfl
    · rename_i v' hveq
      exact absurd hveq (by rw [hv]; simp)

theorem stepFieldRest_install {i : K} {s : MState} {f : String} {rec : Record}
    (hcont : containsA s.resContent i = false)
    (hrec : lookupA s.bContent i = some rec) :
    stepFieldRest i s f = { s with resContent := insertA s.resContent i rec,
                                   aliased := i :: s.aliased } := by
  rw [stepFieldRest, if_neg (by rw [hcont]; simp)]
  split
  · rename_i heq
    exact absurd heq (by rw [hrec]; simp)
  · rename_i rec' heq
    rw [hrec, Option.some.injEq] at heq
    subst heq
    rfl

theorem stepFieldRest_bContent (i : K) (s : MState) (f : String) :
    (stepFieldRest i s f).bContent = s.bContent := by
  rw [stepFieldRest]
  by_cases hcont : containsA s.resContent i
  · rw [if_pos hcont]
    split
    · rfl
    · rename_i rec heq
      split
      · rfl
      · rename_i v hveq
        simp only
        split
        · rw [modifyA_lookup_id]
          intro r hr
          rw [heq, Option.some.injEq] at hr
          subst hr
          exact insertA_lookup_self hveq
        · rfl
  · rw [if_neg hcont]
    split <;> rfl

theorem stepField_bContent (B : Table) (i : K) (s : MState) (f : String) :
    (stepField B i s f).bContent = s.bContent := by
  rw [stepField]
  by_cases hok : s.ok = false
  · rw [if_pos hok]
  · rw [if_neg hok, stepFieldRest_bContent, withFieldAdded_bContent]

theorem stepKey_bContent (B : Table) (s : MState) (i : K) :
    (stepKey B s i).bContent = s.bContent := by
  rw [stepKey]
  generalize B.fields = fs
  induction fs generalizing s with
  | nil => rfl
  | cons f rest ih => rw [List.foldl_cons, ih, stepField_bContent]

theorem runMerge_bContent (A1 B : Table) :
    (runMerge A1 B).bContent = B.indexedContent := by
  rw [runMerge]
  generalize B.indexedContent.map Prod.fst = ks
  induction ks using List.reverseRecOn with
  | nil => rfl
  | append_singleton rest i ih => rw [List.foldl_append, List.foldl_cons, List.foldl_nil,
      stepKey_bContent, ih]

theorem patchRec_nil (rec r : Record) : patchRec rec [] r = r := rfl

theorem patchRec_cons (rec : Record) (f : String) (fs : List String) (r : Record) :
    patchRec rec (f :: fs) r = patchRec rec fs (insertA r f ((lookupA rec f).getD (.txt ""))) := rfl

theorem patchRec_lookup_not_mem {rec : Record} {fs : List String} {f : String}
    (h : f ∉ fs) (r : Record) : lookupA (patchRec rec fs r) f = lookupA r f := by
  induction fs generalizing r with
  | nil => rfl
  | cons g rest ih =>
    simp only [List.mem_cons, not_or] at h
    rw [patchRec_cons, ih h.2, lookupA_insertA_ne _ _ _ _ h.1]

theorem patchRec_lookup_mem {rec : Record} {fs : List String} {f : String}
    (hmem : f ∈ fs) (hful : containsA rec f = true) (r : Record) :
    lookupA (patchRec rec fs r) f = lookupA rec f := by
  induction fs generalizing r with
  | nil => simp at hmem
  | cons g rest ih =>
    by_cases hf : f ∈ rest
    · rw [patchRec_cons, ih hf]
    · have hfg : f = g := by
        rcases List.mem_cons.1 hmem with h | h
        · exact h
        · exact absurd h hf
      subst hfg
      rw [patchRec_cons, patchRec_lookup_not_mem hf, lookupA_insertA_self]
      rw [containsA] at hful
      cases hv : lookupA rec f with
      | none => rw [hv] at hful; simp at hful
      | some v => simp

theorem patchRec_self {rec : Record} :
    ∀ {fs : List String}, (∀ f ∈ fs, containsA rec f = true) →
    patchRec rec fs rec = rec := by
  intro fs
  induction fs with
  | nil => intro _; rfl
  | cons g rest ih =>
    intro hful
    have hg := hful g (List.mem_cons_self _ _)
    rw [containsA] at hg
    cases hv : lookupA rec g with
    | none => rw [hv] at hg; simp at hg
    | some v =>
      rw [patchRec_cons, hv]
      have h1 : insertA rec g ((some v).getD (.txt "")) = rec :=
        insertA_lookup_self (by simp [hv])
      rw [h1]
      exact ih (fun f hf => hful f (List.mem_cons_of_mem _ hf))

/-- Effect of the inner merge loop on a state whose result already holds a
record at the key: the loop succeeds, leaves the content of the right
operand alone, leaves every other key alone, and patches the record at the
key field by field. -/
theorem foldl_stepField_contains {B : Table} {i : K} {rec : Record} :
    ∀ (fs : List String) (s : MState),
    s.ok = true →
    lookupA s.bContent i = some rec →
    (∀ f ∈ fs, containsA rec f = true) →
    ∀ (r : Record), lookupA s.resContent i = some r →
    (fs.foldl (stepField B i) s).ok = true ∧
    (fs.foldl (stepField B i) s).bContent = s.bContent ∧
    (∀ i', i' ≠ i → lookupA (fs.foldl (stepField B i) s).resContent i'
        = lookupA s.resContent i') ∧
    lookupA (fs.foldl (stepField B i) s).resContent i = some (patchRec rec fs r) := by
  intro fs
  induction fs with
  | nil =>
    intro s hok hb hful r hr
    exact ⟨hok, rfl, fun _ _ => rfl, by rw [List.foldl_nil, patchRec_nil, hr]⟩
  | cons f rest ih =>
    intro s hok hb hful r hr
    have hg := hful f (List.mem_cons_self _ _)
    rw [containsA] at hg
    cases hv : lookupA rec f with
    | none => rw [hv] at hg; simp at hg
    | some v =>
      have hc1 : containsA (withFieldAdded B f s).resContent i = true := by
        rw [withFieldAdded_resContent, containsA, hr]
        rfl
      have hc2 : lookupA (withFieldAdded B f s).bContent i = some rec := by
        rw [withFieldAdded_bContent, hb]
      have hstep : stepField B i s f =
          { withFieldAdded B f s with
            resContent := modifyA s.resContent i (fun r => insertA r f v),
            bContent := if i ∈ s.aliased then modifyA s.bContent i (fun r => insertA r f v)
                        else s.bContent } := by
        rw [stepField, if_neg (by rw [hok]; simp), stepFieldRest_write hc1 hc2 hv]
        rfl
      have hb1 : (stepField B i s f).bContent = s.bContent := stepField_bContent B i s f
      have hok1 : (stepField B i s f).ok = true := by rw [hstep]; exact hok
      have hres1 : (stepField B i s f).resContent
          = modifyA s.resContent i (fun r => insertA r f v) := by rw [hstep]
      have hri : lookupA (stepField B i s f).resContent i = some (insertA r f v) := by
        rw [hres1, lookupA_modifyA_self, hr]
        rfl
      rw [List.foldl_cons]
      obtain ⟨c1, c2, c3, c4⟩ := ih (stepField B i s f) hok1 (by rw [hb1, hb])
        (fun g hg2 => hful g (List.mem_cons_of_mem _ hg2)) (insertA r f v) hri
      refine ⟨c1, by rw [c2, hb1], fun i' hi' => ?_, ?_⟩
      · rw [c3 i' hi', hres1, lookupA_modifyA_ne _ _ _ _ hi']
      · rw [c4, patchRec_cons, hv]
        rfl

theorem stepFieldRest_lookup_ne {i i' : K} (h : i' ≠ i) (s : MState) (f : String) :
    lookupA (stepFieldRest i s f).resContent i' = lookupA s.resContent i' := by
  rw [stepFieldRest]
  by_cases hcont : containsA s.resContent i
  · rw [if_pos hcont]
    split
    · rfl
    · split
      · rfl
      · exact lookupA_modifyA_ne _ _ _ _ h
  · rw [if_neg hcont]
    split
    · rfl
    · exact lookupA_insertA_ne _ _ _ _ h

theorem stepField_lookup_ne {i i' : K} (h : i' ≠ i) (B : Table) (s : MState) (f : String) :
    lookupA (stepField B i s f).resContent i' = lookupA s.resContent i' := by
  rw [stepField]
  by_cases hok : s.ok = false
  · rw [if_pos hok]
  · rw [if_neg hok, stepFieldRest_lookup_ne h, withFieldAdded_resContent]

theorem stepKey_lookup_ne {i i' : K} (h : i' ≠ i) (B : Table) (s : MState) :
    lookupA (stepKey B s i).resContent i' = lookupA s.resContent i' := by
  rw [stepKey]
  generalize B.fields = fs
  induction fs generalizing s with
  | nil => rfl
  | cons f rest ih => rw [List.foldl_cons, ih, stepField_lookup_ne h]

theorem stepKey_contains {B : Table} {i : K} {rec : Record} {s : MState}
    (hok : s.ok = true) (hb : lookupA s.bContent i = some rec)
    (hful : ∀ f ∈ B.fields, containsA rec f = true)
    {r : Record} (hr : lookupA s.resContent i = some r) :
    (stepKey B s i).ok = true ∧ (stepKey B s i).bContent = s.bContent ∧
    lookupA (stepKey B s i).resContent i = some (patchRec rec B.fields r) := by
  obtain ⟨c1, c2, _, c4⟩ := foldl_stepField_contains B.fields s hok hb hful r hr
  exact ⟨c1, c2, c4⟩

theorem stepKey_install {B : Table} {i : K} {rec : Record} {s : MState}
    (hok : s.ok = true) (hb : lookupA s.bContent i = some rec)
    (hful : ∀ f ∈ B.fields, containsA rec f = true)
    (hne : B.fields ≠ [])
    (hcont : lookupA s.resContent i = none) :
    (stepKey B s i).ok = true ∧ (stepKey B s i).bContent = s.bContent ∧
    lookupA (stepKey B s i).resContent i = some rec := by
  rw [stepKey]
  cases hfs : B.fields with
  | nil => exact absurd hfs hne
  | cons f fs =>
    have hc1 : containsA (withFieldAdded B f s).resContent i = false := by
      rw [withFieldAdded_resContent, containsA, hcont]
      rfl
    have hc2 : lookupA (withFieldAdded B f s).bContent i = some rec := by
      rw [withFieldAdded_bContent, hb]
    have hstep : stepField B i s f =
        { withFieldAdded B f s with
          resContent := insertA s.resContent i rec, aliased := i :: s.aliased } := by
      rw [stepField, if_neg (by rw [hok]; simp), stepFieldRest_install hc1 hc2]
      rfl
    have hok1 : (stepField B i s f).ok = true := by rw [hstep]; exact hok
    have hb1 : lookupA (stepField B i s f).bContent i = some rec := by
      rw [stepField_bContent, hb]
    have hri : lookupA (stepField B i s f).resContent i = some rec := by
      rw [hstep]
      exact lookupA_insertA_self _ _ _
    have hful2 : ∀ g ∈ fs, containsA rec g = true := fun g hg =>
      hful g (by rw [hfs]; exact List.mem_cons_of_mem _ hg)
    rw [List.foldl_cons]
    obtain ⟨c1, c2, _, c4⟩ := foldl_stepField_contains fs (stepField B i s f)
      hok1 hb1 hful2 rec hri
    refine ⟨c1, ?_, ?_⟩
    · rw [c2, stepField_bContent]
    · rw [c4, patchRec_self hful2]

/-- Effect of one key of the outer merge loop in all cases: ok and the right
operand are preserved (for a key of the right table whose record carries
every schema field), and so is the record at every other key. -/
theorem stepKey_ok {B : Table} {i : K} {rec : Record} {s : MState}
    (hok : s.ok = true) (hb : lookupA s.bContent i = some rec)
    (hful : ∀ f ∈ B.fields, containsA rec f = true) :
    (stepKey B s i).ok = true := by
  cases hr : lookupA s.resContent i with
  | some r => exact (stepKey_contains hok hb hful hr).1
  | none =>
    cases hfs : B.fields with
    | nil =>
      have h0 : stepKey B s i = s := by rw [stepKey, hfs]; rfl
      rw [h0]
      exact hok
    | cons f fs =>
      exact (stepKey_install hok hb hful (by rw [hfs]; simp) hr).1

/-- Trajectory of one fixed key through the outer merge loop. -/
theorem foldKeys_at {B : Table} {i0 : K} {rec0 : Record}
    (hrec0 : lookupA B.indexedContent i0 = some rec0)
    (hful : ∀ q ∈ B.indexedContent, ∀ f ∈ B.fields, containsA q.2 f = true) :
    ∀ (ks : List K) (s : MState),
    s.ok = true → s.bContent = B.indexedContent →
    (∀ k ∈ ks, ∃ rc, lookupA B.indexedContent k = some rc) →
    ks.Nodup →
    (ks.foldl (stepKey B) s).ok = true ∧
    (ks.foldl (stepKey B) s).bContent = B.indexedContent ∧
    (i0 ∉ ks → lookupA (ks.foldl (stepKey B) s).resContent i0
        = lookupA s.resContent i0) ∧
    (i0 ∈ ks → ∀ r, lookupA s.resContent i0 = some r →
        lookupA (ks.foldl (stepKey B) s).resContent i0
          = some (patchRec rec0 B.fields r)) ∧
    (i0 ∈ ks → B.fields ≠ [] → lookupA s.resContent i0 = none →
        lookupA (ks.foldl (stepKey B) s).resContent i0 = some rec0) := by
  intro ks
  induction ks with
  | nil =>
    intro s hok hb _ _
    exact ⟨hok, hb, fun _ => rfl, fun hmem => absurd hmem (by simp),
      fun hmem => absurd hmem (by simp)⟩
  | cons k rest ih =>
    intro s hok hb hkeys hnod
    obtain ⟨rck, hrck⟩ := hkeys k (List.mem_cons_self _ _)
    have hfulk : ∀ f ∈ B.fields, containsA rck f = true :=
      hful (k, rck) (lookupA_mem hrck)
    have hok1 : (stepKey B s k).ok = true :=
      stepKey_ok hok (by rw [hb]; exact hrck) hfulk
    have hb1 : (stepKey B s k).bContent = B.indexedContent := by
      rw [stepKey_bContent, hb]
    rcases List.nodup_cons.1 hnod with ⟨hknr, hnodr⟩
    rw [List.foldl_cons]
    obtain ⟨d1, d2, d3, d4, d5⟩ := ih (stepKey B s k) hok1 hb1
      (fun k' hk' => hkeys k' (List.mem_cons_of_mem _ hk')) hnodr
    refine ⟨d1, d2, ?_, ?_, ?_⟩
    · intro hnmem
      simp only [List.mem_cons, not_or] at hnmem
      rw [d3 hnmem.2, stepKey_lookup_ne (fun hc => hnmem.1 hc) B s]
    · intro hmem r hr
      by_cases hk0 : k = i0
      · subst hk0
        have hrk : rck = rec0 := by
          rw [hrec0, Option.some.injEq] at hrck
          exact hrck.symm
        subst hrk
        have h1 := (stepKey_contains hok (by rw [hb]; exact hrck) hfulk hr).2.2
        rw [d3 hknr, h1]
      · have h1 : lookupA (stepKey B s k).resContent i0 = some r := by
          rw [stepKey_lookup_ne (fun hc => hk0 hc.symm) B s, hr]
        rcases List.mem_cons.1 hmem with h | h
        · exact absurd h.symm hk0
        · exact d4 h r h1
    · intro hmem hne hr
      by_cases hk0 : k = i0
      · subst hk0
        have hrk : rck = rec0 := by
          rw [hrec0, Option.some.injEq] at hrck
          exact hrck.symm
        subst hrk
        have h1 := (stepKey_install hok (by rw [hb]; exact hrck) hfulk hne hr).2.2
        rw [d3 hknr, h1]
      · have h1 : lookupA (stepKey B s k).resContent i0 = none := by
          rw [stepKey_lookup_ne (fun hc => hk0 hc.symm) B s, hr]
        rcases List.mem_cons.1 hmem with h | h
        · exact absurd h.symm hk0
        · exact d5 h hne h1

theorem foldKeys_ok {B : Table} :
    ∀ (ks : List K) (s : MState), s.ok = true → s.bContent = B.indexedContent →
    (∀ k ∈ ks, ∃ rc, lookupA B.indexedContent k = some rc) →
    (∀ q ∈ B.indexedContent, ∀ f ∈ B.fields, containsA q.2 f = true) →
    (ks.foldl (stepKey B) s).ok = true ∧
    (ks.foldl (stepKey B) s).bContent = B.indexedContent := by
  intro ks
  induction ks with
  | nil => exact fun s hok hb _ _ => ⟨hok, hb⟩
  | cons k rest ih =>
    intro s hok hb hkeys hful
    obtain ⟨rck, hrck⟩ := hkeys k (List.mem_cons_self _ _)
    have hok1 : (stepKey B s k).ok = true :=
      stepKey_ok hok (by rw [hb]; exact hrck) (hful (k, rck) (lookupA_mem hrck))
    have hb1 : (stepKey B s k).bContent = B.indexedContent := by
      rw [stepKey_bContent, hb]
    rw [List.foldl_cons]
    exact ih (stepKey B s k) hok1 hb1
      (fun k' hk' => hkeys k' (List.mem_cons_of_mem _ hk')) hful

theorem keys_have_records {B : Table} :
    ∀ k ∈ B.indexedContent.map Prod.fst, ∃ rc, lookupA B.indexedContent k = some rc := by
  intro k hk
  rcases List.mem_map.1 hk with ⟨q, hq, hq2⟩
  have := lookupA_isSome_of_mem (show (k, q.2) ∈ B.indexedContent by
    rw [← hq2]
    exact hq)
  cases hlk : lookupA B.indexedContent k with
  | none => rw [hlk] at this; simp at this
  | some rc => exact ⟨rc, rfl⟩

theorem contentOf_eq (T : Table) (k : K) (f : String) :
    T.contentOf k f = (lookupA T.indexedContent k).bind (fun r => lookupA r f) := by
  cases hk : lookupA T.indexedContent k with
  | none => simp [Table.contentOf, getItem, hk, Bind.bind, Except.bind]
  | some r =>
    cases hv : lookupA r f <;>
      simp [Table.contentOf, getItem, hk, hv, Bind.bind, Except.bind]

theorem lshift_eq_some {A B A1 : Table} (hc : copyTable A = some A1) :
    lshift A B = (if (runMerge A1 B).ok then
      some ⟨A1.indexField, (runMerge A1 B).resTx, (runMerge A1 B).resNm,
        (runMerge A1 B).resContent⟩ else none) := by
  rw [lshift, hc]

theorem lshift_eq_of_WF {A B : Table} (h : WF A) :
    lshift A B = (if (runMerge A B).ok then
      some ⟨A.indexField, (runMerge A B).resTx, (runMerge A B).resNm,
        (runMerge A B).resContent⟩ else none) := by
  rw [lshift, copyTable_eq_self h]

theorem lshift_some_of_WF {A B : Table} (hA : WF A) (hB : recsFull B) :
    lshift A B = some ⟨A.indexField, (runMerge A B).resTx, (runMerge A B).resNm,
      (runMerge A B).resContent⟩ := by
  rw [lshift_eq_of_WF hA, if_pos]
  show (runMerge A B).ok = true
  rw [runMerge]
  exact (foldKeys_ok (B.indexedContent.map Prod.fst) _ rfl rfl keys_have_records hB).1

/-! ## Claim C1 -/
/-- C1, counterexample to the claim as stated: both tables are constructible
(the second one by a specified-schema read that keeps only the cells its row
provides), key 0 is present in both, yet A << B produces no table at all:
the loop body evaluates B.content[0][name] for the schema field name absent
from the record of B, raising KeyError. -/
theorem merge_field_overwrite_existing_cex :
    mkTable "id" ["id"] [] (.rows [[("id", some (.txt "0"))]]) = some tblA0 ∧
    mkTable "id" ["id", "name", "place"] [] (.rows [[("id", some (.txt "0"))]])
      = some tblBmissing ∧
    containsA tblA0.indexedContent (some (.txt "0")) = true ∧
    containsA tblBmissing.indexedContent (some (.txt "0")) = true ∧
    lshift tblA0 tblBmissing = none := by
  refine ⟨by decide, by decide, by decide, by decide, by decide⟩

/-- C1 (amended): for well-formed A (rows keyed by their own index value,
keys inside the schema, numeric cells numeric, no duplicate keys) and B
whose every record carries every field of its schema, the merge A << B
produces a table; at every key present in both, every field of the schema
of B holds the value it has in B, and every other field keeps the value it
has in A. -/
theorem merge_field_overwrite_existing (A B : Table) (hA : WF A) (hB : recsFull B)
    (hnodB : (B.indexedContent.map Prod.fst).Nodup) :
    ∃ C, lshift A B = some C ∧
      ∀ i, containsA A.indexedContent i = true →
        containsA B.indexedContent i = true →
        (∀ f ∈ B.fields, C.contentOf i f = B.contentOf i f) ∧
        (∀ f ∉ B.fields, C.contentOf i f = A.contentOf i f) := by
  refine ⟨_, lshift_some_of_WF hA hB, ?_⟩
  intro i hiA hiB
  rw [containsA] at hiA hiB
  obtain ⟨r0, hr0⟩ : ∃ r, lookupA A.indexedContent i = some r := by
    cases h : lookupA A.indexedContent i with
    | none => rw [h] at hiA; simp at hiA
    | some r => exact ⟨r, rfl⟩
  obtain ⟨rec0, hrec0⟩ : ∃ r, lookupA B.indexedContent i = some r := by
    cases h : lookupA B.indexedContent i with
    | none => rw [h] at hiB; simp at hiB
    | some r => exact ⟨r, rfl⟩
  have hmem : i ∈ B.indexedContent.map Prod.fst :=
    List.mem_map.2 ⟨(i, rec0), lookupA_mem hrec0, rfl⟩
  have hspec := foldKeys_at hrec0 hB (B.indexedContent.map Prod.fst)
    ⟨A.indexedContent, A.txtTypeFields, A.numTypeFields, B.indexedContent, [], true⟩
    rfl rfl keys_have_records hnodB
  have hres : lookupA (runMerge A B).resContent i = some (patchRec rec0 B.fields r0) := by
    rw [runMerge]
    exact hspec.2.2.2.1 hmem r0 hr0
  constructor
  · intro f hf
    rw [contentOf_eq, contentOf_eq]
    show (lookupA (runMerge A B).resContent i).bind (fun r => lookupA r f)
      = (lookupA B.indexedContent i).bind (fun r => lookupA r f)
    rw [hres, hrec0, Option.some_bind, Option.some_bind]
    exact patchRec_lookup_mem hf (hB (i, rec0) (lookupA_mem hrec0) f hf) r0
  · intro f hf
    rw [contentOf_eq, contentOf_eq]
    show (lookupA (runMerge A B).resContent i).bind (fun r => lookupA r f)
      = (lookupA A.indexedContent i).bind (fun r => lookupA r f)
    rw [hres, hr0, Option.some_bind, Option.some_bind]
    exact patchRec_lookup_not_mem hf r0

/-- C1 witness: the amended theorem applied to two concrete one-row tables
sharing key 0. -/
theorem merge_field_overwrite_existing_witness :
    WF tblWit1 ∧ recsFull tblWit2 ∧
      (tblWit2.indexedContent.map Prod.fst).Nodup ∧
      (∃ C, lshift tblWit1 tblWit2 = some C ∧
        ∀ i, containsA tblWit1.indexedContent i = true →
          containsA tblWit2.indexedContent i = true →
          (∀ f ∈ tblWit2.fields, C.contentOf i f = tblWit2.contentOf i f) ∧
          (∀ f ∉ tblWit2.fields, C.contentOf i f = tblWit1.contentOf i f)) :=
  ⟨by decide, by decide, by decide,
    merge_field_overwrite_existing tblWit1 tblWit2 (by decide) (by decide) (by decide)⟩

/-! ## Claim C2 -/
/-- C2, counterexample to the claim as stated: key 2 is present only in B,
and its record lacks two of the three declared schema fields; after the
whole-row install of the first field iteration, the next field iteration
evaluates B.content[2] at a field the record lacks and raises KeyError, so
A << B produces no table (whatever order the field set iterates in). -/
theorem merge_whole_row_install_cex :
    mkTable "id" ["id"] [] (.rows [[("id", some (.txt "0"))]]) = some tblA0 ∧
    mkTable "id" ["id", "x", "y"] [] (.rows [[("id", some (.txt "2"))]])
      = some tblBnewGap ∧
    containsA tblBnewGap.indexedContent (some (.txt "2")) = true ∧
    containsA tblA0.indexedContent (some (.txt "2")) = false ∧
    lshift tblA0 tblBnewGap = none := by
  refine ⟨by decide, by decide, by decide, by decide, by decide⟩

/-- C2 (amended): for well-formed A, and B with a nonempty schema whose
every record carries every schema field, the merge produces a table whose
record at every key present only in B is exactly the record of B. -/
theorem merge_whole_row_install (A B : Table) (hA : WF A) (hB : recsFull B)
    (hnodB : (B.indexedContent.map Prod.fst).Nodup) (hne : B.fields ≠ []) :
    ∃ C, lshift A B = some C ∧
      ∀ i, containsA B.indexedContent i = true →
        containsA A.indexedContent i = false →
        lookupA C.indexedContent i = lookupA B.indexedContent i := by
  refine ⟨_, lshift_some_of_WF hA hB, ?_⟩
  intro i hiB hiA
  rw [containsA] at hiB
  obtain ⟨rec0, hrec0⟩ : ∃ r, lookupA B.indexedContent i = some r := by
    cases h : lookupA B.indexedContent i with
    | none => rw [h] at hiB; simp at hiB
    | some r => exact ⟨r, rfl⟩
  have hnone : lookupA A.indexedContent i = none := by
    rw [containsA] at hiA
    cases h : lookupA A.indexedContent i with
    | none => rfl
    | some r => rw [h] at hiA; simp at hiA
  have hmem : i ∈ B.indexedContent.map Prod.fst :=
    List.mem_map.2 ⟨(i, rec0), lookupA_mem hrec0, rfl⟩
  have hspec := foldKeys_at hrec0 hB (B.indexedContent.map Prod.fst)
    ⟨A.indexedContent, A.txtTypeFields, A.numTypeFields, B.indexedContent, [], true⟩
    rfl rfl keys_have_records hnodB
  have hres : lookupA (runMerge A B).resContent i = some rec0 := by
    rw [runMerge]
    exact hspec.2.2.2.2 hmem hne hnone
  show lookupA (runMerge A B).resContent i = lookupA B.indexedContent i
  rw [hres, hrec0]

/-- C2 witness: the amended theorem applied to concrete tables where key 1
is only in the right operand. -/
theorem merge_whole_row_install_witness :
    WF tblWit1 ∧ recsFull tblWit3 ∧
      (tblWit3.indexedContent.map Prod.fst).Nodup ∧ tblWit3.fields ≠ [] ∧
      (∃ C, lshift tblWit1 tblWit3 = some C ∧
        ∀ i, containsA tblWit3.indexedContent i = true →
          containsA tblWit1.indexedContent i = false →
          lookupA C.indexedContent i = lookupA tblWit3.indexedContent i) :=
  ⟨by decide, by decide, by decide, by decide,
    merge_whole_row_install tblWit1 tblWit3 (by decide) (by decide) (by decide) (by decide)⟩

/-! ## Claim C3 -/
/-- C3, counterexample to the claim as stated: the constructible table with
one record whose index cell was null.  Merging it with the empty table
starts with Table.copy, whose re-read of the record raises KeyError on the
missing index cell, so no table is yielded at all. -/
theorem merge_emptyTable_identity_cex :
    mkTable "id" [] [] (.rows [[("id", none)]]) = some tblNullKey ∧
    lshift tblNullKey ⟨"id", [], [], []⟩ = none := by
  refine ⟨by decide, by decide⟩

/-- C3 (amended): for a well-formed table T (rows keyed by their own index
value, keys inside the schema, numeric cells numeric, no duplicate keys),
merging with any empty-schema empty-content table returns a table that is
equal to T componentwise, hence equal under Table equality. -/
theorem merge_emptyTable_identity (T : Table) (hT : WF T) (e : Table)
    (h1 : e.txtTypeFields = []) (h2 : e.numTypeFields = [])
    (h3 : e.indexedContent = []) :
    lshift T e = some T := by
  obtain ⟨ixf, tx, nm, ic⟩ := e
  simp only at h1 h2 h3
  subst h1
  subst h2
  subst h3
  rw [lshift, copyTable_eq_self hT]
  rfl

/-- C3 witness: a concrete well-formed table merged with an empty table. -/
theorem merge_emptyTable_identity_witness :
    WF tblWit1 ∧ lshift tblWit1 ⟨"id", [], [], []⟩ = some tblWit1 :=
  ⟨by decide, merge_emptyTable_identity tblWit1 (by decide) ⟨"id", [], [], []⟩ rfl rfl rfl⟩

/-! ## Claim C4 -/
/-- C4: evaluating A << B leaves the content of the right operand exactly as
it was, for all tables, even when the merge raises.  The loop does write
into records of B through the aliases created by whole-row installs, but
every such write stores the value the field already has.  The left operand
is never written at all: Table.copy builds fresh record dicts before the
loop runs, which is why the loop state carries no reference to A. -/
theorem merge_preserves_operands (A B : Table) :
    lshiftOperandB A B = B.indexedContent := by
  rw [lshiftOperandB]
  cases hc : copyTable A with
  | none => rfl
  | some A1 => exact runMerge_bContent A1 B

/-! ## Claim C7 -/
/-- C7: contentOf is total.  Its try/except returns the stored value when
the key exists and the record holds the field, and the None sentinel when
the key is absent or the field is absent from the record; the KeyError of
either failing dict access never escapes. -/
theorem contentOf_never_raises (T : Table) (k : K) (f : String) :
    (∀ rec v, lookupA T.indexedContent k = some rec → lookupA rec f = some v →
        T.contentOf k f = some v) ∧
    (lookupA T.indexedContent k = none → T.contentOf k f = none) ∧
    (∀ rec, lookupA T.indexedContent k = some rec → lookupA rec f = none →
        T.contentOf k f = none) := by
  refine ⟨?_, ?_, ?_⟩
  · intro rec v h1 h2
    rw [contentOf_eq, h1, Option.some_bind, h2]
  · intro h1
    rw [contentOf_eq, h1]
    rfl
  · intro rec h1 h2
    rw [contentOf_eq, h1, Option.some_bind, h2]

/-- C7 witness: the three behaviors of contentOf at a concrete table. -/
theorem contentOf_never_raises_witness :
    tblWit1.contentOf (some (.txt "0")) "name" = some (.txt "a") ∧
    tblWit1.contentOf (some (.txt "9")) "name" = none ∧
    tblWit1.contentOf (some (.txt "0")) "zzz" = none :=
  ⟨(contentOf_never_raises tblWit1 (some (.txt "0")) "name").1
      [("id", .txt "0"), ("name", .txt "a")] (.txt "a") (by decide) (by decide),
   (contentOf_never_raises tblWit1 (some (.txt "9")) "name").2.1 (by decide),
   (contentOf_never_raises tblWit1 (some (.txt "0")) "zzz").2.2
      [("id", .txt "0"), ("name", .txt "a")] (by decide) (by decide)⟩

/-- C8, counterexample to the claim as stated: the constructible table with
an empty schema and empty content exports an empty schema mapping, so no
field at all carries the primary key suffix, not exactly one. -/
theorem getFields_primary_key_cex :
    mkTable "id" [] [] (.rows []) = some (⟨"id", [], [], []⟩ : Table) ∧
    (Table.getFields ⟨"id", [], [], []⟩).countP (fun p => hasPkSuffix p.2) = 0 := by
  refine ⟨by decide, by decide⟩

theorem countP_pk_aux (ixf : String) (txtl : List String) :
    ∀ (l : List String), l.Nodup →
    (l.map (fun f => (f, (if f ∈ txtl then "text" else "numeric")
        ++ (if f = ixf then " primary key" else "")))).countP
          (fun p => hasPkSuffix p.2)
      = if ixf ∈ l then 1 else 0 := by
  intro l
  induction l with
  | nil => intro _; simp
  | cons b rest ih =>
    intro hnod
    rcases List.nodup_cons.1 hnod with ⟨hb, hrest⟩
    rw [List.map_cons, List.countP_cons, ih hrest]
    by_cases hx : b = ixf
    · subst hx
      rw [if_neg hb, if_pos (List.mem_cons_self _ _)]
      have hval : hasPkSuffix ((if b ∈ txtl then "text" else "numeric")
          ++ " primary key") = true := by
        by_cases ht : b ∈ txtl
        · rw [if_pos ht]
          decide
        · rw [if_neg ht]
          decide
      simp [hval]
    · have hval : hasPkSuffix ((if b ∈ txtl then "text" else "numeric")
          ++ (if b = ixf then " primary key" else "")) = false := by
        by_cases ht : b ∈ txtl
        · rw [if_pos ht, if_neg hx]
          decide
        · rw [if_neg ht, if_neg hx]
          decide
      have hmem : (if ixf ∈ b :: rest then 1 else 0) = (if ixf ∈ rest then 1 else 0) := by
        by_cases hm : ixf ∈ rest
        · rw [if_pos hm, if_pos (List.mem_cons_of_mem _ hm)]
        · rw [if_neg hm, if_neg (fun hc => ?_)]
          rcases List.mem_cons.1 hc with h | h
          · exact hx h.symm
          · exact hm h
      rw [hmem] at *
      simp [hval]

/-- C8 (amended): the schema export marks a field with the primary key
suffix exactly when it is the index field, so there is exactly one such
field when the index field belongs to the schema and none otherwise (for
example on an empty table); fields of the text set map to the text type
string and the remaining fields to the numeric one (a field listed in both
sets is exported as text). -/
theorem getFields_primary_key (T : Table) :
    (Table.getFields T).countP (fun p => hasPkSuffix p.2)
      = (if T.indexField ∈ T.fields then 1 else 0) ∧
    (∀ p ∈ Table.getFields T, hasPkSuffix p.2 = true → p.1 = T.indexField) ∧
    (∀ p ∈ Table.getFields T, p.1 ∈ T.txtTypeFields → strHasBase "text" p.2 = true) ∧
    (∀ p ∈ Table.getFields T, p.1 ∉ T.txtTypeFields →
        strHasBase "numeric" p.2 = true) := by
  refine ⟨?_, ?_, ?_, ?_⟩
  · rw [Table.getFields]
    exact countP_pk_aux T.indexField T.txtTypeFields T.fields (nodup_dedupL _)
  · intro p hp
    rcases List.mem_map.1 hp with ⟨f, _, rfl⟩
    intro hc
    show f = T.indexField
    by_cases hx : f = T.indexField
    · exact hx
    · exfalso
      rw [show ((fun f => (f, (if f ∈ T.txtTypeFields then "text" else "numeric")
          ++ (if f = T.indexField then " primary key" else ""))) f).2
          = (if f ∈ T.txtTypeFields then "text" else "numeric")
            ++ (if f = T.indexField then " primary key" else "") from rfl, if_neg hx] at hc
      by_cases ht : f ∈ T.txtTypeFields
      · rw [if_pos ht] at hc
        exact absurd hc (by decide)
      · rw [if_neg ht] at hc
        exact absurd hc (by decide)
  · intro p hp ht
    rcases List.mem_map.1 hp with ⟨f, _, rfl⟩
    show strHasBase "text" ((if f ∈ T.txtTypeFields then "text" else "numeric")
      ++ (if f = T.indexField then " primary key" else "")) = true
    rw [if_pos ht]
    by_cases hx : f = T.indexField
    · rw [if_pos hx]
      decide
    · rw [if_neg hx]
      decide
  · intro p hp ht
    rcases List.mem_map.1 hp with ⟨f, _, rfl⟩
    show strHasBase "numeric" ((if f ∈ T.txtTypeFields then "text" else "numeric")
      ++ (if f = T.indexField then " primary key" else "")) = true
    rw [if_neg ht]
    by_cases hx : f = T.indexField
    · rw [if_pos hx]
      decide
    · rw [if_neg hx]
      decide

/-- C8 witness: the amended characterization at a concrete table with a
text field, a numeric field and a text index field. -/
theorem getFields_primary_key_witness :
    ((Table.getFields ⟨"id", ["id", "name"], ["amount"], []⟩).countP
        (fun p => hasPkSuffix p.2)
      = (if "id" ∈ (⟨"id", ["id", "name"], ["amount"], []⟩ : Table).fields then 1 else 0)) ∧
    (∀ p ∈ Table.getFields ⟨"id", ["id", "name"], ["amount"], []⟩,
        hasPkSuffix p.2 = true → p.1 = "id") :=
  ⟨(getFields_primary_key ⟨"id", ["id", "name"], ["amount"], []⟩).1,
   (getFields_primary_key ⟨"id", ["id", "name"], ["amount"], []⟩).2.1⟩

theorem addFieldSets_disj {tx nm : List String} (hd : Disj tx nm)
    (f : String) (kind : FieldKind) :
    Disj (addFieldSets tx nm f kind).1 (addFieldSets tx nm f kind).2 := by
  rw [addFieldSets]
  by_cases hmem : f ∈ tx ∨ f ∈ nm
  · rw [if_pos hmem]
    exact hd
  · rw [if_neg hmem]
    simp only [not_or] at hmem
    by_cases hk : kind = .strK
    · rw [if_pos hk]
      intro g hg
      rcases List.mem_append.1 hg with h | h
      · exact hd g h
      · rw [List.mem_singleton.1 h]
        exact hmem.2
    · rw [if_neg hk]
      intro g hg hgnm
      rcases List.mem_append.1 hgnm with h | h
      · exact hd g hg h
      · exact hmem.1 (List.mem_singleton.1 h ▸ hg)

theorem stepUnspec_disj {kv : K} {st : RState} (hd : Disj st.tx st.nm)
    (p : String × Option Value) :
    Disj (stepUnspec kv st p).tx (stepUnspec kv st p).nm := by
  rw [stepUnspec]
  cases p.2 with
  | none => exact hd
  | some v => exact addFieldSets_disj hd p.1 (kindOf v)

theorem foldl_stepUnspec_disj {kv : K} :
    ∀ (ps : List (String × Option Value)) (st : RState), Disj st.tx st.nm →
    Disj (ps.foldl (stepUnspec kv) st).tx (ps.foldl (stepUnspec kv) st).nm := by
  intro ps
  induction ps with
  | nil => exact fun st hd => hd
  | cons p rest ih =>
    intro st hd
    rw [List.foldl_cons]
    exact ih _ (stepUnspec_disj hd p)

theorem readUnspecDataset_disj {ixf : String} {s0 s1 : RState} {d : Dataset}
    (h : readUnspecDataset ixf s0 d = some s1) (hd : Disj s0.tx s0.nm) :
    Disj s1.tx s1.nm := by
  rw [readUnspecDataset] at h
  split at h
  · exact absurd h (by simp)
  · split at h
    · exact absurd h (by simp)
    · rw [Option.some.injEq] at h
      subst h
      exact foldl_stepUnspec_disj d.pairs _ hd

theorem foldUnspec_none {ixf : String} :
    ∀ (ds : List Dataset), ds.foldl (foldUnspec ixf) none = none := by
  intro ds
  induction ds with
  | nil => rfl
  | cons d rest ih => rw [List.foldl_cons]; exact ih

theorem foldUnspec_disj {ixf : String} :
    ∀ (ds : List Dataset) (s0 s : RState),
    ds.foldl (foldUnspec ixf) (some s0) = some s → Disj s0.tx s0.nm →
    Disj s.tx s.nm := by
  intro ds
  induction ds with
  | nil =>
    intro s0 s h hd
    rw [List.foldl_nil, Option.some.injEq] at h
    subst h
    exact hd
  | cons d rest ih =>
    intro s0 s h hd
    rw [List.foldl_cons] at h
    cases hr : readUnspecDataset ixf s0 d with
    | none =>
      rw [show foldUnspec ixf (some s0) d = readUnspecDataset ixf s0 d from rfl, hr,
        foldUnspec_none] at h
      exact absurd h (by simp)
    | some s1 =>
      rw [show foldUnspec ixf (some s0) d = readUnspecDataset ixf s0 d from rfl, hr] at h
      exact ih s1 s h (readUnspecDataset_disj hr hd)

theorem mkTable_disj {ixf : String} {tx nm : List String} {src : Source} {T : Table}
    (hd : Disj tx nm) (h : mkTable ixf tx nm src = some T) :
    Disj T.txtTypeFields T.numTypeFields := by
  simp only [mkTable] at h
  split at h
  · exact absurd h (by simp)
  · split at h
    · split at h
      · exact absurd h (by simp)
      · rename_i s hfold
        rw [Option.some.injEq] at h
        subst h
        exact foldUnspec_disj _ _ _ hfold hd
    · split at h
      · exact absurd h (by simp)
      · rename_i content hfold
        rw [Option.some.injEq] at h
        subst h
        exact hd

theorem stepFieldRest_sets (i : K) (s : MState) (f : String) :
    (stepFieldRest i s f).resTx = s.resTx ∧ (stepFieldRest i s f).resNm = s.resNm := by
  rw [stepFieldRest]
  by_cases hcont : containsA s.resContent i
  · rw [if_pos hcont]
    split
    · exact ⟨rfl, rfl⟩
    · split
      · exact ⟨rfl, rfl⟩
      · exact ⟨rfl, rfl⟩
  · rw [if_neg hcont]
    split
    · exact ⟨rfl, rfl⟩
    · exact ⟨rfl, rfl⟩

theorem stepField_disj {B : Table} {i : K} {s : MState} (hd : Disj s.resTx s.resNm)
    (f : String) : Disj (stepField B i s f).resTx (stepField B i s f).resNm := by
  rw [stepField]
  by_cases hok : s.ok = false
  · rw [if_pos hok]
    exact hd
  · rw [if_neg hok]
    obtain ⟨h1, h2⟩ := stepFieldRest_sets i (withFieldAdded B f s) f
    rw [h1, h2]
    exact addFieldSets_disj hd f _

theorem stepKey_disj {B : Table} {s : MState} (hd : Disj s.resTx s.resNm) (i : K) :
    Disj (stepKey B s i).resTx (stepKey B s i).resNm := by
  rw [stepKey]
  generalize B.fields = fs
  induction fs generalizing s with
  | nil => exact hd
  | cons f rest ih =>
    rw [List.foldl_cons]
    exact ih (stepField_disj hd f)

theorem runMerge_disj {A1 B : Table} (hd : Disj A1.txtTypeFields A1.numTypeFields) :
    Disj (runMerge A1 B).resTx (runMerge A1 B).resNm := by
  rw [runMerge]
  generalize B.indexedContent.map Prod.fst = ks
  induction ks using List.reverseRecOn with
  | nil => exact hd
  | append_singleton rest i ih =>
    rw [List.foldl_append, List.foldl_cons, List.foldl_nil]
    exact stepKey_disj ih i

/-- C9, counterexample to the claim as stated: the constructor performs no
disjointness check, so declaring the same field in both sets yields a table
whose text and numeric sets overlap. -/
theorem schema_sets_disjoint_cex :
    mkTable "id" ["id"] ["id"] (.rows []) = some (⟨"id", ["id"], ["id"], []⟩ : Table) ∧
    "id" ∈ (⟨"id", ["id"], ["id"], []⟩ : Table).txtTypeFields ∧
    "id" ∈ (⟨"id", ["id"], ["id"], []⟩ : Table).numTypeFields := by
  refine ⟨by decide, by decide, by decide⟩

/-- C9 (amended): when the declared sets are disjoint, disjointness is an
invariant of every public operation: construction from any source (because
_addField only ever adds a field absent from the union), copy, and merge
(whose result sets also grow only through _addField on the copy of the left
operand). -/
theorem schema_sets_disjoint :
    (∀ (ixf : String) (tx nm : List String) (src : Source) (T : Table),
        Disj tx nm → mkTable ixf tx nm src = some T →
        Disj T.txtTypeFields T.numTypeFields) ∧
    (∀ T T1 : Table, Disj T.txtTypeFields T.numTypeFields → copyTable T = some T1 →
        Disj T1.txtTypeFields T1.numTypeFields) ∧
    (∀ A B C : Table, Disj A.txtTypeFields A.numTypeFields → lshift A B = some C →
        Disj C.txtTypeFields C.numTypeFields) := by
  refine ⟨fun ixf tx nm src T hd h => mkTable_disj hd h, ?_, ?_⟩
  · intro T T1 hd h
    exact mkTable_disj hd h
  · intro A B C hd h
    cases hc : copyTable A with
    | none =>
      rw [lshift, hc] at h
      exact absurd h (by simp)
    | some A1 =>
      rw [lshift_eq_some hc] at h
      have hd1 : Disj A1.txtTypeFields A1.numTypeFields := mkTable_disj hd hc
      by_cases hok : (runMerge A1 B).ok = true
      · rw [if_pos hok, Option.some.injEq] at h
        subst h
        exact runMerge_disj hd1
      · rw [if_neg hok] at h
        exact absurd h (by simp)

/-- C9 witness: part one of the invariant at a concrete construction. -/
theorem schema_sets_disjoint_witness :
    Disj ["a"] ["b"] ∧
    mkTable "a" ["a"] ["b"] (.rows []) = some (⟨"a", ["a"], ["b"], []⟩ : Table) ∧
    Disj (⟨"a", ["a"], ["b"], []⟩ : Table).txtTypeFields
      (⟨"a", ["a"], ["b"], []⟩ : Table).numTypeFields :=
  ⟨by decide, by decide,
    schema_sets_disjoint.1 "a" ["a"] ["b"] (.rows []) ⟨"a", ["a"], ["b"], []⟩
      (by decide) (by decide)⟩

theorem mem_insertA {α : Type} [DecidableEq α] {β : Type}
    {l : List (α × β)} {k : α} {v : β} {p : α × β}
    (h : p ∈ insertA l k v) : p ∈ l ∨ p = (k, v) := by
  induction l with
  | nil =>
    rw [insertA] at h
    exact Or.inr (List.mem_singleton.1 h)
  | cons q rest ih =>
    obtain ⟨a, b⟩ := q
    by_cases ha : a = k
    · rw [insertA, if_pos ha] at h
      rcases List.mem_cons.1 h with h1 | h1
      · subst ha
        exact Or.inr h1
      · exact Or.inl (List.mem_cons_of_mem _ h1)
    · rw [insertA, if_neg ha] at h
      rcases List.mem_cons.1 h with h1 | h1
      · exact Or.inl (h1 ▸ List.mem_cons_self _ _)
      · rcases ih h1 with h2 | h2
        · exact Or.inl (List.mem_cons_of_mem _ h2)
        · exact Or.inr h2

theorem mem_modifyA {α : Type} [DecidableEq α] {β : Type}
    {l : List (α × β)} {k : α} {g : β → β} {q : α × β}
    (h : q ∈ modifyA l k g) : q ∈ l ∨ ∃ r, (q.1, r) ∈ l ∧ q.2 = g r := by
  induction l with
  | nil =>
    rw [modifyA] at h
    simp at h
  | cons p rest ih =>
    obtain ⟨a, b⟩ := p
    by_cases ha : a = k
    · rw [modifyA, if_pos ha] at h
      rcases List.mem_cons.1 h with h1 | h1
      · refine Or.inr ⟨b, ?_, ?_⟩
        · rw [h1]
          exact List.mem_cons_self _ _
        · rw [h1]
      · exact Or.inl (List.mem_cons_of_mem _ h1)
    · rw [modifyA, if_neg ha] at h
      rcases List.mem_cons.1 h with h1 | h1
      · exact Or.inl (h1 ▸ List.mem_cons_self _ _)
      · rcases ih h1 with h2 | h2
        · exact Or.inl (List.mem_cons_of_mem _ h2)
        · exact Or.inr ⟨h2.choose, List.mem_cons_of_mem _ h2.choose_spec.1, h2.choose_spec.2⟩

theorem addFieldSets_tx_mono {tx nm : List String} {x : String} (hx : x ∈ tx)
    (f : String) (kind : FieldKind) : x ∈ (addFieldSets tx nm f kind).1 := by
  rw [addFieldSets]
  split_ifs
  · exact hx
  · exact List.mem_append.2 (Or.inl hx)
  · exact hx

theorem addFieldSets_strK_nm (tx nm : List String) (f : String) :
    (addFieldSets tx nm f .strK).2 = nm := by
  rw [addFieldSets]
  split_ifs with h1 h2
  · rfl
  · rfl
  · exact absurd rfl h2

theorem addFieldSets_strK_self (tx : List String) (f : String) :
    f ∈ (addFieldSets tx [] f .strK).1 := by
  rw [addFieldSets]
  by_cases hmem : f ∈ tx ∨ f ∈ ([] : List String)
  · rw [if_pos hmem]
    rcases hmem with h | h
    · exact h
    · simp at h
  · rw [if_neg hmem, if_pos rfl]
    exact List.mem_append.2 (Or.inr (List.mem_singleton.2 rfl))

theorem stepUnspec_inv {kv : K} {st : RState} (hinv : TxtInv st)
    {p : String × Option Value}
    (hp : p.2 = none ∨ ∃ str, p.2 = some (.txt str)) :
    TxtInv (stepUnspec kv st p) := by
  obtain ⟨hnm, hrec⟩ := hinv
  rcases hp with hp | ⟨str, hp⟩
  · rw [stepUnspec, hp]
    exact ⟨hnm, hrec⟩
  · rw [stepUnspec, hp]
    simp only [kindOf]
    constructor
    · rw [addFieldSets_strK_nm]
      exact hnm
    · intro q hq p' hp'
      have hmono : ∀ x ∈ st.tx, x ∈ (addFieldSets st.tx st.nm p.1 .strK).1 :=
        fun x hx => addFieldSets_tx_mono hx _ _
      have hself : p.1 ∈ (addFieldSets st.tx st.nm p.1 .strK).1 := by
        rw [hnm]
        exact addFieldSets_strK_self st.tx p.1
      rcases mem_modifyA hq with h1 | ⟨r, h1, h2⟩
      · obtain ⟨ha, hb⟩ := hrec q h1 p' hp'
        exact ⟨hmono _ ha, hb⟩
      · rw [h2] at hp'
        rcases mem_insertA hp' with h3 | h3
        · obtain ⟨ha, hb⟩ := hrec (q.1, r) h1 p' h3
          exact ⟨hmono _ ha, hb⟩
        · rw [h3]
          exact ⟨hself, str, rfl⟩

theorem foldl_stepUnspec_inv {kv : K} :
    ∀ (ps : List (String × Option Value)) (st : RState), TxtInv st →
    (∀ p ∈ ps, p.2 = none ∨ ∃ str, p.2 = some (.txt str)) →
    TxtInv (ps.foldl (stepUnspec kv) st) := by
  intro ps
  induction ps with
  | nil => exact fun st hinv _ => hinv
  | cons p rest ih =>
    intro st hinv hps
    rw [List.foldl_cons]
    exact ih _ (stepUnspec_inv hinv (hps p (List.mem_cons_self _ _)))
      (fun p' hp' => hps p' (List.mem_cons_of_mem _ hp'))

theorem readUnspecDataset_inv {ixf : String} {s0 s1 : RState} {d : Dataset}
    (h : readUnspecDataset ixf s0 d = some s1) (hinv : TxtInv s0)
    (hd : ∀ p ∈ d.pairs, p.2 = none ∨ ∃ str, p.2 = some (.txt str)) :
    TxtInv s1 := by
  rw [readUnspecDataset] at h
  split at h
  · exact absurd h (by simp)
  · rename_i kv hkv
    split at h
    · exact absurd h (by simp)
    · rw [Option.some.injEq] at h
      subst h
      apply foldl_stepUnspec_inv d.pairs _ ?_ hd
      refine ⟨hinv.1, ?_⟩
      intro q hq p' hp'
      rcases mem_insertA hq with h1 | h1
      · exact hinv.2 q h1 p' hp'
      · rw [h1] at hp'
        simp at hp'

theorem foldUnspec_inv {ixf : String} :
    ∀ (ds : List Dataset) (s0 s : RState),
    ds.foldl (foldUnspec ixf) (some s0) = some s → TxtInv s0 →
    (∀ d ∈ ds, ∀ p ∈ d.pairs, p.2 = none ∨ ∃ str, p.2 = some (.txt str)) →
    TxtInv s := by
  intro ds
  induction ds with
  | nil =>
    intro s0 s h hinv _
    rw [List.foldl_nil, Option.some.injEq] at h
    subst h
    exact hinv
  | cons d rest ih =>
    intro s0 s h hinv hds
    rw [List.foldl_cons] at h
    cases hr : readUnspecDataset ixf s0 d with
    | none =>
      rw [show foldUnspec ixf (some s0) d = readUnspecDataset ixf s0 d from rfl, hr,
        foldUnspec_none] at h
      exact absurd h (by simp)
    | some s1 =>
      rw [show foldUnspec ixf (some s0) d = readUnspecDataset ixf s0 d from rfl, hr] at h
      exact ih s1 s h
        (readUnspecDataset_inv hr hinv (hds d (List.mem_cons_self _ _)))
        (fun d' hd' => hds d' (List.mem_cons_of_mem _ hd'))

theorem buildPairs_vals :
    ∀ (hs cs : List String), ∀ p ∈ buildPairs hs cs,
    p.2 = none ∨ ∃ str, p.2 = some (.txt str) := by
  intro hs
  induction hs with
  | nil => intro cs p hp; rw [buildPairs] at hp; simp at hp
  | cons h1 hrest ih =>
    intro cs p hp
    cases cs with
    | nil =>
      rw [buildPairs] at hp
      rcases List.mem_cons.1 hp with h | h
      · rw [h]
        exact Or.inl rfl
      · exact ih [] p h
    | cons c crest =>
      rw [buildPairs] at hp
      rcases List.mem_cons.1 hp with h | h
      · rw [h]
        exact Or.inr ⟨readCell c, rfl⟩
      · exact ih crest p h

theorem datasetsOf_text_vals (rows : List (List String)) :
    ∀ d ∈ datasetsOf (.text rows), ∀ p ∈ d.pairs,
    p.2 = none ∨ ∃ str, p.2 = some (.txt str) := by
  cases rows with
  | nil => intro d hd; rw [datasetsOf] at hd; simp at hd
  | cons hrow rs =>
    intro d hd p hp
    rw [datasetsOf] at hd
    rcases List.mem_map.1 hd with ⟨cells, _, hd2⟩
    rw [← hd2] at hp
    exact buildPairs_vals _ cells p hp

/-- C10: a Table constructed from delimited text with an empty declared
schema classifies every field that receives a value as a text field (the
csv reader hands every cell over as a string, so _addField is only ever
called with the str class); the numeric set stays empty and every stored
cell is a string. -/
theorem unspecified_text_read_all_text (ixf : String) (rows : List (List String))
    (T : Table) (h : mkTable ixf [] [] (.text rows) = some T) :
    T.numTypeFields = [] ∧
    ∀ q ∈ T.indexedContent, ∀ p ∈ q.2, p.1 ∈ T.txtTypeFields ∧
      ∃ str, p.2 = Value.txt str := by
  simp only [mkTable] at h
  split at h
  · exact absurd h (by simp)
  · split at h
    · split at h
      · exact absurd h (by simp)
      · rename_i s hfold
        rw [Option.some.injEq] at h
        subst h
        have hinv : TxtInv s := foldUnspec_inv _ _ _ hfold ⟨rfl, by simp⟩
          (datasetsOf_text_vals rows)
        exact ⟨hinv.1, hinv.2⟩
    · rename_i hcond
      exact absurd rfl hcond

/-- C10 witness: the theorem applied to a concrete two-column csv text. -/
theorem unspecified_text_read_all_text_witness :
    mkTable "id" [] [] (.text [["\"id\"", "\"name\""], ["\"0\"", "\"x\""]])
      = some (⟨"id", ["id", "name"], [],
          [(some (.txt "0"), [("id", .txt "0"), ("name", .txt "x")])]⟩ : Table) ∧
    ((⟨"id", ["id", "name"], [],
        [(some (.txt "0"), [("id", .txt "0"), ("name", .txt "x")])]⟩ : Table).numTypeFields
        = [] ∧
      ∀ q ∈ (⟨"id", ["id", "name"], [],
          [(some (.txt "0"), [("id", .txt "0"), ("name", .txt "x")])]⟩ : Table).indexedContent,
        ∀ p ∈ q.2, p.1 ∈ (⟨"id", ["id", "name"], [],
          [(some (.txt "0"), [("id", .txt "0"), ("name", .txt "x")])]⟩ : Table).txtTypeFields ∧
          ∃ str, p.2 = Value.txt str) :=
  ⟨by decide, unspecified_text_read_all_text "id" [["\"id\"", "\"name\""], ["\"0\"", "\"x\""]]
    ⟨"id", ["id", "name"], [], [(some (.txt "0"), [("id", .txt "0"), ("name", .txt "x")])]⟩
    (by decide)⟩

/-- For a complete well-typed row, reading back the written cell of any
schema field restores exactly the stored value. -/
theorem readVal_roundtrip {T : Table} {rec : Record} (hcond : RowCond T rec)
    {f : String} (hf : f ∈ T.fields) :
    ∃ v, lookupA rec f = some v ∧
      readVal T.numTypeFields f (readCell (cellF rec f)) = some v := by
  obtain ⟨_, _, hful, hty⟩ := hcond
  have hc := hful f hf
  rw [containsA] at hc
  cases hv : lookupA rec f with
  | none => rw [hv] at hc; simp at hc
  | some v =>
    refine ⟨v, rfl, ?_⟩
    have hcell : cellF rec f = writeCell v := by
      rw [cellF, hv]
      rfl
    rw [hcell, readCell_writeCell]
    have hty2 := hty (f, v) (lookupA_mem hv)
    by_cases hn : f ∈ T.numTypeFields
    · have := hty2.1 hn
      cases v with
      | txt s => simp [isNumV] at this
      | num n =>
        rw [readVal, if_pos hn]
        show (match literalEvalInt (intToStr n) with
          | some n => some (Value.num n)
          | none => none) = some (Value.num n)
        rw [literalEvalInt_intToStr]
    · have := hty2.2 hn
      cases v with
      | num n => simp [isTxtV] at this
      | txt s => rw [readVal, if_neg hn]; rfl

/-- Stored values determine the raw index cell injectively across the rows
of a table satisfying the round-trip conditions. -/
theorem kvOfT_inj {T : Table} {r1 r2 : Record}
    (h1 : RowCond T r1) (h2 : RowCond T r2) (hix : T.indexField ∈ T.fields)
    (heq : kvOfT T r1 = kvOfT T r2) :
    lookupA r1 T.indexField = lookupA r2 T.indexField := by
  obtain ⟨v1, hv1, _⟩ := readVal_roundtrip h1 hix
  obtain ⟨v2, hv2, _⟩ := readVal_roundtrip h2 hix
  rw [hv1, hv2]
  have e1 : cellF r1 T.indexField = writeCell v1 := by rw [cellF, hv1]; rfl
  have e2 : cellF r2 T.indexField = writeCell v2 := by rw [cellF, hv2]; rfl
  rw [kvOfT, kvOfT, e1, e2, readCell_writeCell, readCell_writeCell] at heq
  have hraw : rawStr v1 = rawStr v2 := by
    injection heq with h
    injection h with h
  by_cases hn : T.indexField ∈ T.numTypeFields
  · have t1 := (h1.2.2.2 (T.indexField, v1) (lookupA_mem hv1)).1 hn
    have t2 := (h2.2.2.2 (T.indexField, v2) (lookupA_mem hv2)).1 hn
    cases v1 with
    | txt s => simp [isNumV] at t1
    | num n1 =>
      cases v2 with
      | txt s => simp [isNumV] at t2
      | num n2 =>
        rw [show rawStr (Value.num n1) = intToStr n1 from rfl,
          show rawStr (Value.num n2) = intToStr n2 from rfl] at hraw
        rw [intToStr_inj hraw]
  · have t1 := (h1.2.2.2 (T.indexField, v1) (lookupA_mem hv1)).2 hn
    have t2 := (h2.2.2.2 (T.indexField, v2) (lookupA_mem hv2)).2 hn
    cases v1 with
    | num n => simp [isTxtV] at t1
    | txt s1 =>
      cases v2 with
      | num n => simp [isTxtV] at t2
      | txt s2 =>
        rw [show rawStr (Value.txt s1) = s1 from rfl,
          show rawStr (Value.txt s2) = s2 from rfl] at hraw
        rw [hraw]

theorem lookupA_map_pair (g : String → Value) :
    ∀ (fs : List String) (x : String),
    lookupA (fs.map (fun f => (f, g f))) x = if x ∈ fs then some (g x) else none := by
  intro fs
  induction fs with
  | nil => intro x; simp [lookupA]
  | cons f rest ih =>
    intro x
    by_cases hx : f = x
    · subst hx
      rw [List.map_cons]
      simp [lookupA]
    · rw [List.map_cons]
      have : lookupA ((f, g f) :: rest.map (fun f => (f, g f))) x
          = lookupA (rest.map (fun f => (f, g f))) x := by
        rw [lookupA, if_neg hx]
      rw [this, ih x]
      by_cases hm : x ∈ rest
      · rw [if_pos hm, if_pos (List.mem_cons_of_mem _ hm)]
      · rw [if_neg hm, if_neg (fun hc => ?_)]
        rcases List.mem_cons.1 hc with h | h
        · exact hx h.symm
        · exact hm h

theorem map_congr_mem {α β : Type} {f g : α → β} :
    ∀ {l : List α}, (∀ a ∈ l, f a = g a) → l.map f = l.map g := by
  intro l
  induction l with
  | nil => intro _; rfl
  | cons a rest ih =>
    intro h
    rw [List.map_cons, List.map_cons, h a (List.mem_cons_self _ _),
      ih (fun x hx => h x (List.mem_cons_of_mem _ hx))]

theorem buildPairs_map :
    ∀ (hs : List String) (g : String → String),
    buildPairs hs (hs.map g) = hs.map (fun f => (f, some (Value.txt (readCell (g f))))) := by
  intro hs
  induction hs with
  | nil => intro g; rfl
  | cons h1 rest ih =>
    intro g
    rw [List.map_cons, buildPairs, ih g, List.map_cons]

theorem stepSpec_read {fieldsL nmL : List String} {kv : K}
    {c0 : List (K × Record)} (h0 : lookupA c0 kv = none)
    {f : String} {raw : String} {v : Value} (hf : f ∈ fieldsL)
    (hv : readVal nmL f raw = some v) (r : Record) :
    stepSpec fieldsL nmL kv (some (c0 ++ [(kv, r)])) (f, some (.txt raw))
      = some (c0 ++ [(kv, insertA r f v)]) := by
  show (if f ∈ fieldsL then
      (if f ∈ nmL then
        (match literalEvalInt raw with
         | some n => some (modifyA (c0 ++ [(kv, r)]) kv (fun r => insertA r f (.num n)))
         | none => none)
       else some (modifyA (c0 ++ [(kv, r)]) kv (fun r => insertA r f (.txt raw))))
    else some (c0 ++ [(kv, r)])) = some (c0 ++ [(kv, insertA r f v)])
  rw [if_pos hf]
  by_cases hn : f ∈ nmL
  · rw [if_pos hn]
    cases hp : literalEvalInt raw with
    | none =>
      rw [readVal, if_pos hn, hp] at hv
      exact absurd hv (by simp)
    | some n =>
      rw [readVal, if_pos hn, hp] at hv
      have hvn : Value.num n = v := by injection hv
      subst hvn
      show some (modifyA (c0 ++ [(kv, r)]) kv (fun r => insertA r f (.num n)))
        = some (c0 ++ [(kv, insertA r f (.num n))])
      rw [modifyA_append_last h0]
  · rw [if_neg hn]
    rw [readVal, if_neg hn] at hv
    have hvt : Value.txt raw = v := by injection hv
    subst hvt
    rw [modifyA_append_last h0]

theorem foldl_stepSpec_read {fieldsL nmL : List String} {kv : K}
    {c0 : List (K × Record)} (h0 : lookupA c0 kv = none) (vals : String → String) :
    ∀ (fs : List String) (r : Record),
    (∀ f ∈ fs, f ∈ fieldsL) →
    (∀ f ∈ fs, ∃ v, readVal nmL f (vals f) = some v) →
    (fs.map (fun f => (f, some (Value.txt (vals f))))).foldl (stepSpec fieldsL nmL kv)
        (some (c0 ++ [(kv, r)]))
      = some (c0 ++ [(kv, fs.foldl
          (fun r f => insertA r f ((readVal nmL f (vals f)).getD (.txt ""))) r)]) := by
  intro fs
  induction fs with
  | nil => intro r _ _; rfl
  | cons f rest ih =>
    intro r hfs hvs
    obtain ⟨v, hv⟩ := hvs f (List.mem_cons_self _ _)
    rw [List.map_cons, List.foldl_cons,
      stepSpec_read h0 (hfs f (List.mem_cons_self _ _)) hv r,
      ih (insertA r f v) (fun x hx => hfs x (List.mem_cons_of_mem _ hx))
        (fun x hx => hvs x (List.mem_cons_of_mem _ hx)),
      List.foldl_cons, hv]
    rfl

theorem foldl_insert_map (g : String → Value) {fs : List String} (h : fs.Nodup) :
    fs.foldl (fun (r : Record) f => insertA r f (g f)) []
      = fs.map (fun f => (f, g f)) := by
  have h1 : fs.foldl (fun (r : Record) f => insertA r f (g f)) []
      = (fs.map (fun f => (f, g f))).foldl (fun r p => insertA r p.1 p.2) [] := by
    rw [List.foldl_map]
  rw [h1, foldl_insertA_fresh _ [] (fun p _ => rfl) ?_]
  · rw [List.nil_append]
  · rw [List.map_map]
    have he : (Prod.fst ∘ fun f : String => (f, g f)) = fun f => f := rfl
    rw [he, List.map_id']
    exact h

theorem readSpecDataset_read {T : Table} (hix : T.indexField ∈ T.fields)
    {rec : Record} (hcond : RowCond T rec)
    {c0 : List (K × Record)} (h0 : lookupA c0 (kvOfT T rec) = none) :
    readSpecDataset T.indexField T.fields T.numTypeFields c0
      ⟨buildPairs (fieldnamesOf T) (rowOf (fieldnamesOf T) rec), false⟩
      = some (c0 ++ [(kvOfT T rec, recOutT T rec)]) := by
  have hbp : buildPairs (fieldnamesOf T) (rowOf (fieldnamesOf T) rec)
      = (fieldnamesOf T).map (fun f => (f, some (Value.txt (readCell (cellF rec f))))) := by
    rw [rowOf]
    exact buildPairs_map (fieldnamesOf T) (cellF rec)
  have hlk : lookupA (buildPairs (fieldnamesOf T) (rowOf (fieldnamesOf T) rec)) T.indexField
      = some (kvOfT T rec) := by
    rw [hbp, fieldnamesOf, List.map_cons, lookupA, if_pos rfl]
    rfl
  rw [readSpecDataset_eq hlk]
  show (buildPairs (fieldnamesOf T) (rowOf (fieldnamesOf T) rec)).foldl
      (stepSpec T.fields T.numTypeFields (kvOfT T rec))
      (some (insertA c0 (kvOfT T rec) [])) = _
  rw [hbp, insertA_fresh h0,
    foldl_stepSpec_read h0 (fun f => readCell (cellF rec f)) (fieldnamesOf T) []
      (fun f hf => (mem_fieldnamesOf hix).1 hf)
      (fun f hf => by
        obtain ⟨v, _, hrv⟩ := readVal_roundtrip hcond ((mem_fieldnamesOf hix).1 hf)
        exact ⟨v, hrv⟩),
    foldl_insert_map _ (nodup_fieldnamesOf T)]
  rfl

theorem foldSpec_read {T : Table} (hix : T.indexField ∈ T.fields) :
    ∀ (rows acc : List (K × Record)),
    (∀ q ∈ rows, RowCond T q.2) →
    (∀ q ∈ rows, lookupA acc (kvOfT T q.2) = none) →
    (rows.map (fun q => kvOfT T q.2)).Nodup →
    (rows.map (fun q =>
        (⟨buildPairs (fieldnamesOf T) (rowOf (fieldnamesOf T) q.2), false⟩ : Dataset))).foldl
        (foldSpec T.indexField T.fields T.numTypeFields) (some acc)
      = some (acc ++ rows.map (fun q => (kvOfT T q.2, recOutT T q.2))) := by
  intro rows
  induction rows with
  | nil => intro acc _ _ _; simp
  | cons q rest ih =>
    intro acc hrows hfresh hnod
    rw [List.map_cons, List.foldl_cons]
    have hstep : foldSpec T.indexField T.fields T.numTypeFields (some acc)
        ⟨buildPairs (fieldnamesOf T) (rowOf (fieldnamesOf T) q.2), false⟩
        = some (acc ++ [(kvOfT T q.2, recOutT T q.2)]) := by
      show readSpecDataset T.indexField T.fields T.numTypeFields acc
        ⟨buildPairs (fieldnamesOf T) (rowOf (fieldnamesOf T) q.2), false⟩ = _
      exact readSpecDataset_read hix (hrows q (List.mem_cons_self _ _))
        (hfresh q (List.mem_cons_self _ _))
    rw [hstep,
      ih (acc ++ [(kvOfT T q.2, recOutT T q.2)])
        (fun q' hq' => hrows q' (List.mem_cons_of_mem _ hq'))
        (fun q' hq' => ?_)
        ((List.nodup_cons.1 hnod).2),
      List.append_assoc]
    · rfl
    · rw [lookupA_append, hfresh q' (List.mem_cons_of_mem _ hq')]
      have hne : kvOfT T q.2 ≠ kvOfT T q'.2 := by
        intro hc
        apply (List.nodup_cons.1 hnod).1
        show kvOfT T q.2 ∈ List.map (fun q => kvOfT T q.2) rest
        rw [hc]
        exact List.mem_map.2 ⟨q', hq', rfl⟩
      show lookupA [(kvOfT T q.2, recOutT T q.2)] (kvOfT T q'.2) = none
      rw [lookupA, if_neg hne]
      rfl

theorem forall2_map_self {α β : Type} {R : β → β → Prop} (u v : α → β) :
    ∀ (l : List α), (∀ a ∈ l, R (u a) (v a)) →
    List.Forall₂ R (l.map u) (l.map v) := by
  intro l
  induction l with
  | nil => intro _; exact .nil
  | cons a rest ih =>
    intro h
    rw [List.map_cons, List.map_cons]
    exact .cons (h a (List.mem_cons_self _ _))
      (ih (fun x hx => h x (List.mem_cons_of_mem _ hx)))

theorem recOutT_dictBeq {T : Table} (hix : T.indexField ∈ T.fields)
    {rec : Record} (hcond : RowCond T rec) :
    dictBeq (recOutT T rec) rec = true := by
  apply dictBeq_of_lookup
  · rw [recOutT, List.map_map]
    have he : (Prod.fst ∘ fun f : String =>
        (f, (readVal T.numTypeFields f (readCell (cellF rec f))).getD (Value.txt "")))
        = fun f => f := rfl
    rw [he, List.map_id']
    exact nodup_fieldnamesOf T
  · exact hcond.1
  · intro x
    rw [recOutT, lookupA_map_pair]
    by_cases hm : x ∈ fieldnamesOf T
    · rw [if_pos hm]
      obtain ⟨v, hv, hrv⟩ := readVal_roundtrip hcond ((mem_fieldnamesOf hix).1 hm)
      rw [hrv, hv]
      rfl
    · rw [if_neg hm]
      have hxf : x ∉ T.fields := fun hc => hm ((mem_fieldnamesOf hix).2 hc)
      cases hlx : lookupA rec x with
      | none => rfl
      | some v => exact absurd (hcond.2.1 (x, v) (lookupA_mem hlx)) hxf

/-! ## Claim C5, main theorems -/
/-- C5, counterexample to the claim as stated: a table whose record lacks a
declared field (constructible, since specified-schema reads keep only the
cells a row provides) does not round trip: the missing cell is written as
the empty quoted string and read back as an empty text value, so the
reconstructed record has one field more and Table equality rejects it. -/
theorem csv_roundtrip_cex :
    mkTable "id" ["id", "name"] [] (.rows [[("id", some (.txt "0"))]]) = some tbl5 ∧
    Table.toCsvRows tbl5 = some [["\"id\"", "\"name\""], ["\"0\"", "\"\""]] ∧
    mkTable "id" ["id", "name"] [] (.text [["\"id\"", "\"name\""], ["\"0\"", "\"\""]])
      = some tbl5r ∧
    tableEqPy tbl5r tbl5 = false := by
  refine ⟨by decide, by decide, by decide, by decide⟩

/-- C5 (amended): a table with its index field declared, every record
carrying a (well-typed) value for every declared field, and pairwise
distinct index values, serializes with toCsv and reads back with the same
declared schema into a table equal to the original under Table equality. -/
theorem csv_roundtrip (T : Table) (h : RTok T) :
    ∃ rows T2, T.toCsvRows = some rows ∧
      mkTable T.indexField T.txtTypeFields T.numTypeFields (.text rows) = some T2 ∧
      tableEqPy T2 T = true := by
  obtain ⟨hix, hrows, hnod⟩ := h
  have hall : T.indexedContent.all (fun q => q.2.all (fun p => p.1 ∈ fieldnamesOf T))
      = true := by
    simp only [List.all_eq_true, decide_eq_true_eq]
    intro q hq p hp
    exact (mem_fieldnamesOf hix).2 ((hrows q hq).2.1 p hp)
  have hcsv : T.toCsvRows = some ((fieldnamesOf T).map (fun n => writeCell (.txt n))
      :: T.indexedContent.map (fun q => rowOf (fieldnamesOf T) q.2)) := by
    rw [Table.toCsvRows, if_pos hall]
  have hhdr : ((fieldnamesOf T).map (fun n => writeCell (.txt n))).map readCell
      = fieldnamesOf T := by
    rw [List.map_map]
    have hpt : ∀ n ∈ fieldnamesOf T, (readCell ∘ fun n => writeCell (Value.txt n)) n
        = (fun x => x) n := fun n _ => readCell_writeCell (.txt n)
    rw [map_congr_mem hpt, List.map_id']
  have hds : datasetsOf (.text ((fieldnamesOf T).map (fun n => writeCell (.txt n))
        :: T.indexedContent.map (fun q => rowOf (fieldnamesOf T) q.2)))
      = T.indexedContent.map (fun q =>
          (⟨buildPairs (fieldnamesOf T) (rowOf (fieldnamesOf T) q.2), false⟩ : Dataset)) := by
    simp only [datasetsOf]
    rw [hhdr, List.map_map]
    apply map_congr_mem
    intro q _
    show (⟨buildPairs (fieldnamesOf T) (rowOf (fieldnamesOf T) q.2),
        decide ((fieldnamesOf T).length < (rowOf (fieldnamesOf T) q.2).length)⟩ : Dataset)
      = ⟨buildPairs (fieldnamesOf T) (rowOf (fieldnamesOf T) q.2), false⟩
    have hlen : (rowOf (fieldnamesOf T) q.2).length = (fieldnamesOf T).length := by
      rw [rowOf, List.length_map]
    rw [hlen]
    simp
  have hkvnod : (T.indexedContent.map (fun q => kvOfT T q.2)).Nodup := by
    have hmm : T.indexedContent.map (fun q => kvOfT T q.2)
        = (T.indexedContent.map (fun q => lookupA q.2 T.indexField)).map
            (fun o => some (Value.txt (readCell (writeCell (o.getD (.txt "")))))) := by
      rw [List.map_map]
      rfl
    rw [hmm]
    apply List.Nodup.map_on ?_ hnod
    intro x hx y hy hxy
    rcases List.mem_map.1 hx with ⟨q1, hq1, hx1⟩
    rcases List.mem_map.1 hy with ⟨q2, hq2, hy1⟩
    rw [← hx1, ← hy1]
    rw [← hx1, ← hy1] at hxy
    exact kvOfT_inj (hrows q1 hq1) (hrows q2 hq2) hix hxy
  have hfold := foldSpec_read hix T.indexedContent [] hrows (fun q _ => rfl) hkvnod
  have hne : T.fields ≠ [] := List.ne_nil_of_mem hix
  refine ⟨_, ⟨T.indexField, T.txtTypeFields, T.numTypeFields,
    T.indexedContent.map (fun q => (kvOfT T q.2, recOutT T q.2))⟩, hcsv, ?_, ?_⟩
  · simp only [mkTable]
    rw [show dedupL (T.txtTypeFields ++ T.numTypeFields) = T.fields from rfl]
    rw [if_neg (by rintro ⟨_, h2⟩; exact h2 hix), if_neg hne, hds, hfold,
      List.nil_append]
  · apply tableEqPy_of_forall2
    · rfl
    · exact setBeq_refl _
    · exact setBeq_refl _
    show List.Forall₂ (fun a b => dictBeq a b = true)
      ((T.indexedContent.map (fun q => (kvOfT T q.2, recOutT T q.2))).map Prod.snd)
      (T.indexedContent.map Prod.snd)
    rw [List.map_map]
    exact forall2_map_self _ _ T.indexedContent
      (fun q hq => recOutT_dictBeq hix (hrows q hq))

/-- C5 witness: the amended round trip at a concrete table with text and
numeric cells, a negative number and special characters in a text value. -/
theorem csv_roundtrip_witness :
    RTok tblRT ∧
    (∃ rows T2, tblRT.toCsvRows = some rows ∧
      mkTable tblRT.indexField tblRT.txtTypeFields tblRT.numTypeFields (.text rows)
        = some T2 ∧
      tableEqPy T2 tblRT = true) :=
  ⟨by decide, csv_roundtrip tblRT (by decide)⟩

/-- C6, counterexample to the claim as stated: toCsv uses QUOTE_NONNUMERIC,
so the numeric cell of this constructible table is written as the bare
digits with no quote characters around it. -/
theorem toCsv_quote_policy_cex :
    mkTable "id" [] [] (.rows [[("id", some (.num 0))]]) = some tblNum ∧
    Table.toCsvRows tblNum = some [["\"id\""], ["0"]] ∧
    isQuotedCell "0" = false := by
  refine ⟨by decide, by decide, by decide⟩

/-- C6 (amended): every written cell is either quoted or the bare decimal
rendering of an integer, and the two cases are exact: header cells (always
strings) are always quoted, and a data cell is quoted exactly when it does
not come from a numeric value, i.e. exactly when it is not a decimal
integer rendering. -/
theorem toCsv_quote_policy (T : Table) (hdr : List String) (body : List (List String))
    (h : T.toCsvRows = some (hdr :: body)) :
    (∀ c ∈ hdr, isQuotedCell c = true) ∧
    (∀ row ∈ body, ∀ c ∈ row, (isQuotedCell c = true ↔ ¬∃ n : Int, c = intToStr n)) := by
  rw [Table.toCsvRows] at h
  split at h
  · rw [Option.some.injEq] at h
    have h1 : hdr = (fieldnamesOf T).map (fun n => writeCell (.txt n)) := by
      injection h with ha _
      exact ha.symm
    have h2 : body = T.indexedContent.map (fun q => rowOf (fieldnamesOf T) q.2) := by
      injection h with _ hb
      exact hb.symm
    constructor
    · intro c hc
      rw [h1] at hc
      rcases List.mem_map.1 hc with ⟨n, _, hn⟩
      rw [← hn]
      exact isQuotedCell_writeCell_txt n
    · intro row hrow c hc
      rw [h2] at hrow
      rcases List.mem_map.1 hrow with ⟨q, _, hq⟩
      rw [← hq, rowOf] at hc
      rcases List.mem_map.1 hc with ⟨f, _, hf⟩
      rw [← hf, cellF]
      cases hw : (lookupA q.2 f).getD (.txt "") with
      | txt s =>
        constructor
        · rintro _ ⟨n, hn⟩
          exact writeCell_txt_ne_intToStr s n hn
        · intro _
          exact isQuotedCell_writeCell_txt s
      | num m =>
        constructor
        · intro hc2
          rw [isQuotedCell_writeCell_num m] at hc2
          exact absurd hc2 (by simp)
        · intro hno
          exact absurd ⟨m, rfl⟩ hno
  · exact absurd h (by simp)

/-- C6 witness: the amended quoting dichotomy at a concrete table with one
text and one numeric cell. -/
theorem toCsv_quote_policy_witness :
    (∀ c ∈ ["\"id\"", "\"amount\"", "\"name\""], isQuotedCell c = true) ∧
    (∀ row ∈ [["\"7\"", "0", "\"a|v\"\"x\""]], ∀ c ∈ row,
      (isQuotedCell c = true ↔ ¬∃ n : Int, c = intToStr n)) := by
  have h := toCsv_quote_policy tblQW ["\"id\"", "\"amount\"", "\"name\""]
    [["\"7\"", "0", "\"a|v\"\"x\""]] (by decide)
  exact h

end DBH

